import Mathlib

/-!
# Graph Consolidation & Incremental Reconciliation Engine — verification

Shallow embedding of the HackTX repository's core:

* `mergeNodes` / `rewireEdges`        — from `src/optimize.js` (server Lambda)
* `labelByMergedId` / `topicFor`      — topic resolution in the optimize handler
* `findOpenAlex` / `findArxiv` / `findScholarSerpAPI` — enrichment provider chain
* `reconcileNodes` / `reconcileEdges` — from `graph-viz/components/graph-visualization.tsx`

JS numbers used as ids and relevance scores are modelled as `Int` (the logic on
them is purely order/equality-based, so every concrete behaviour exercised here
is realisable with integer-valued JS numbers).  JS `Map` objects are modelled as
association lists with replace-in-place `set` and first-match `get`, matching
`Map.get`/`Map.set` observable semantics.  Absent object fields are `Option`s;
the JS truthiness of strings (`""` is falsy) is modelled explicitly.
-/

namespace HackTX

/-- Graph node as stored/served by the backend (`{id, title, summary, papers,
relevance}`). -/
structure Node where
  id : Int
  title : String
  summary : String
  papers : List String
  relevance : Int
  deriving Repr, DecidableEq

/-- Edge `{nodeID1, nodeID2, reasoning}`. -/
structure Edge where
  nodeID1 : Int
  nodeID2 : Int
  reasoning : String
  deriving Repr, DecidableEq

/-- Oracle-proposed merge group `{label, memberIds, summary, reasoning}`.
`label`/`summary` are `Option` so that the JS `g.label || fallback` idiom
(absent *or* empty string falls back) can be modelled faithfully. -/
structure Group where
  label : Option String
  memberIds : List Int
  summary : Option String
  reasoning : Option String
  deriving Repr, DecidableEq

/-! ## Association lists (JS `Map` model) -/

/-- `Map.get`: first entry with the given key. -/
def aget {α : Type} : List (Int × α) → Int → Option α
  | [], _ => none
  | p :: rest, k => if p.1 = k then some p.2 else aget rest k

/-- `Map.set`: replace the entry with the given key in place, else append. -/
def aset {α : Type} : List (Int × α) → Int → α → List (Int × α)
  | [], k, v => [(k, v)]
  | p :: rest, k, v => if p.1 = k then (k, v) :: rest else p :: aset rest k v

/-- Keys of an association list. -/
def akeys {α : Type} (m : List (Int × α)) : List Int := m.map (·.1)

/-- Values of an association list (JS `Map.values()` in insertion order). -/
def avalues {α : Type} (m : List (Int × α)) : List α := m.map (·.2)

@[simp] theorem aget_nil {α : Type} (k : Int) : aget ([] : List (Int × α)) k = none := rfl

@[simp] theorem aget_cons {α : Type} (p : Int × α) (rest : List (Int × α)) (k : Int) :
    aget (p :: rest) k = if p.1 = k then some p.2 else aget rest k := rfl

@[simp] theorem aset_nil {α : Type} (k : Int) (v : α) :
    aset ([] : List (Int × α)) k v = [(k, v)] := rfl

@[simp] theorem aset_cons {α : Type} (p : Int × α) (rest : List (Int × α)) (k : Int) (v : α) :
    aset (p :: rest) k v = if p.1 = k then (k, v) :: rest else p :: aset rest k v := rfl

@[simp] theorem akeys_nil {α : Type} : akeys ([] : List (Int × α)) = [] := rfl

@[simp] theorem akeys_cons {α : Type} (p : Int × α) (rest : List (Int × α)) :
    akeys (p :: rest) = p.1 :: akeys rest := rfl

@[simp] theorem avalues_nil {α : Type} : avalues ([] : List (Int × α)) = [] := rfl

@[simp] theorem avalues_cons {α : Type} (p : Int × α) (rest : List (Int × α)) :
    avalues (p :: rest) = p.2 :: avalues rest := rfl

theorem mem_akeys_of_mem {α : Type} {m : List (Int × α)} {p : Int × α} (h : p ∈ m) :
    p.1 ∈ akeys m :=
  List.mem_map_of_mem (·.1) h

theorem aget_aset {α : Type} (m : List (Int × α)) (k k' : Int) (v : α) :
    aget (aset m k v) k' = if k = k' then some v else aget m k' := by
  induction m with
  | nil => by_cases h : k = k' <;> simp [h]
  | cons p rest ih =>
    by_cases hp : p.1 = k
    · by_cases h : k = k'
      · simp [hp, h]
      · have hp' : ¬ p.1 = k' := by rw [hp]; exact h
        simp [hp, h, hp']
    · by_cases h : p.1 = k'
      · have hk : ¬ k = k' := fun he => hp (by rw [he, h])
        have hk' : ¬ k' = k := fun he => hk he.symm
        simp [hp, h, hk, hk']
      · simp [hp, h, ih]

theorem akeys_aset {α : Type} (m : List (Int × α)) (k : Int) (v : α) :
    akeys (aset m k v) = if k ∈ akeys m then akeys m else akeys m ++ [k] := by
  induction m with
  | nil => simp
  | cons p rest ih =>
    by_cases hp : p.1 = k
    · have hmem : k ∈ akeys (p :: rest) := by simp [hp.symm]
      rw [if_pos hmem]
      simp [hp]
    · have hne : ¬ k = p.1 := fun h => hp h.symm
      by_cases hk : k ∈ akeys rest
      · have hmem : k ∈ akeys (p :: rest) := by simp [hk]
        rw [if_pos hmem]
        simp [hp, ih, hk]
      · have hmem : k ∉ akeys (p :: rest) := by simp [hne, hk]
        rw [if_neg hmem]
        simp [hp, ih, hk]

theorem mem_akeys_aset {α : Type} (m : List (Int × α)) (k k' : Int) (v : α) :
    k' ∈ akeys (aset m k v) ↔ k' = k ∨ k' ∈ akeys m := by
  rw [akeys_aset]
  by_cases hk : k ∈ akeys m
  · rw [if_pos hk]
    constructor
    · exact Or.inr
    · rintro (rfl | h)
      · exact hk
      · exact h
  · rw [if_neg hk]
    simp [or_comm]

theorem nodup_akeys_aset {α : Type} (m : List (Int × α)) (k : Int) (v : α)
    (h : (akeys m).Nodup) : (akeys (aset m k v)).Nodup := by
  rw [akeys_aset]
  by_cases hk : k ∈ akeys m
  · rw [if_pos hk]; exact h
  · rw [if_neg hk]
    simp [List.nodup_append, h]
    exact hk

theorem aget_isSome_iff {α : Type} (m : List (Int × α)) (k : Int) :
    (aget m k).isSome ↔ k ∈ akeys m := by
  induction m with
  | nil => simp
  | cons p rest ih =>
    by_cases hp : p.1 = k
    · simp [hp]
    · have hp' : ¬ k = p.1 := fun h => hp h.symm
      simp [hp, hp', ih]

theorem aget_eq_none_iff {α : Type} (m : List (Int × α)) (k : Int) :
    aget m k = none ↔ k ∉ akeys m := by
  rw [← aget_isSome_iff]
  cases h : aget m k <;> simp [h]

theorem mem_avalues_of_aget {α : Type} (m : List (Int × α)) (k : Int) (v : α)
    (h : aget m k = some v) : v ∈ avalues m := by
  induction m with
  | nil => simp at h
  | cons p rest ih =>
    by_cases hp : p.1 = k
    · simp [hp] at h
      simp [h]
    · simp [hp] at h
      simp
      exact Or.inr (ih h)

theorem aget_of_mem_nodup {α : Type} (m : List (Int × α)) (k : Int) (v : α)
    (hn : (akeys m).Nodup) (h : (k, v) ∈ m) : aget m k = some v := by
  induction m with
  | nil => simp at h
  | cons p rest ih =>
    simp only [akeys_cons, List.nodup_cons] at hn
    rcases List.mem_cons.mp h with h1 | h1
    · simp [← h1]
    · have hk : k ∈ akeys rest := mem_akeys_of_mem h1
      have hne : ¬ p.1 = k := fun he => hn.1 (he ▸ hk)
      simp [hne]
      exact ih hn.2 h1

theorem mem_avalues_iff_aget {α : Type} (m : List (Int × α))
    (hn : (akeys m).Nodup) (v : α) :
    v ∈ avalues m ↔ ∃ k, aget m k = some v := by
  constructor
  · intro h
    obtain ⟨p, hp, hv⟩ := List.mem_map.mp h
    refine ⟨p.1, ?_⟩
    rw [← hv]
    exact aget_of_mem_nodup m p.1 p.2 hn (by simpa using hp)
  · rintro ⟨k, hk⟩
    exact mem_avalues_of_aget m k v hk

/-! ## MergeEngine (`mergeNodes` in `src/optimize.js`) -/

/-- `Math.min(...l)` on a nonempty list (the callers guard nonemptiness). -/
def listMin : List Int → Int
  | [] => 0
  | x :: xs => xs.foldl min x

/-- `Math.max(...l)` on a nonempty list (the callers guard nonemptiness). -/
def listMax : List Int → Int
  | [] => 0
  | x :: xs => xs.foldl max x

/-- JS `o || d` on an optional string: absent or empty falls back to `d`. -/
def jsOr (o : Option String) (d : String) : String :=
  match o with
  | some s => if s = "" then d else s
  | none => d

/-- JS `String.prototype.trim()`: strip leading and trailing whitespace.
Modelled structurally over the character list so that it is kernel-executable
(Lean's own `String.trim` recurses on byte positions by well-founded
recursion, which kernel reduction cannot evaluate). -/
def jsTrim (s : String) : String :=
  ⟨((s.data.dropWhile Char.isWhitespace).reverse.dropWhile Char.isWhitespace).reverse⟩

/-- `members.join("+")`. -/
def joinPlus (l : List Int) : String :=
  String.intercalate "+" (l.map toString)

/-- Ids of the input node list. -/
def nodeIds (nodes : List Node) : List Int := nodes.map (·.id)

/-- `g.memberIds.filter(id => idSet.has(id))`. -/
def validMembers (nodes : List Node) (g : Group) : List Int :=
  g.memberIds.filter (fun id => id ∈ nodeIds nodes)

/-- A group survives both guards in `mergeNodes` iff it has at least two
member ids that exist in the node list (the first guard,
`memberIds.length < 2`, is implied by this). -/
def acceptedB (nodes : List Node) (g : Group) : Bool :=
  2 ≤ (validMembers nodes g).length

/-- `nodes.find(n => n.id === id)?.relevance ?? 0`. -/
def findRelevance (nodes : List Node) (id : Int) : Int :=
  ((nodes.find? (fun n => n.id = id)).map (·.relevance)).getD 0

/-- The merged node built for one accepted group (body of the group loop in
`mergeNodes`). -/
def mkMerged (nodes : List Node) (g : Group) : Node :=
  let members := validMembers nodes g
  { id := listMin members
    title := jsTrim (jsOr g.label ("Merged " ++ joinPlus members))
    summary := jsTrim (jsOr g.summary (jsTrim (jsOr g.label ("Merged " ++ joinPlus members))))
    papers := []
    relevance := listMax (members.map (findRelevance nodes)) }

/-- One iteration of the `for (const g of groups)` loop in `mergeNodes`;
the accumulator is `(assigned, idMap, mergedNodes)`. -/
def groupStep (nodes : List Node) (acc : List Int × List (Int × Int) × List Node)
    (g : Group) : List Int × List (Int × Int) × List Node :=
  if g.memberIds.length < 2 then acc
  else
    let members := validMembers nodes g
    if members.length < 2 then acc
    else
      let mergedId := listMin members
      (acc.1 ++ members,
       members.foldl (fun m id => aset m id mergedId) acc.2.1,
       acc.2.2 ++ [mkMerged nodes g])

/-- The relevance-max resolution step of the `byId` loop in `mergeNodes`. -/
def relStep (m : List (Int × Node)) (n : Node) : List (Int × Node) :=
  match aget m n.id with
  | none => aset m n.id n
  | some prev => if prev.relevance < n.relevance then aset m n.id n else m

/-- The whole group loop of `mergeNodes`: accumulated `(assigned, idMap,
mergedNodes)`. -/
def groupPhase (nodes : List Node) (groups : List Group) :
    List Int × List (Int × Int) × List Node :=
  groups.foldl (groupStep nodes) ([], [], [])

/-- `nodes.filter(n => !assigned.has(n.id))`. -/
def passthroughOf (nodes : List Node) (groups : List Group) : List Node :=
  nodes.filter (fun n => ¬ n.id ∈ (groupPhase nodes groups).1)

/-- `mergeNodes(nodes, groups)` from `src/optimize.js`: returns the merged
node list and the id-remapping table. -/
def mergeNodes (nodes : List Node) (groups : List Group) :
    List Node × List (Int × Int) :=
  (avalues (((groupPhase nodes groups).2.2 ++ passthroughOf nodes groups).foldl relStep []),
   (passthroughOf nodes groups).foldl (fun m n => aset m n.id n.id)
     (groupPhase nodes groups).2.1)

/-! ### Derived descriptions of `mergeNodes` used in the claims -/

/-- A node id is claimed iff some group accepted by `mergeNodes` has it among
its valid members. -/
def claimedB (nodes : List Node) (groups : List Group) (k : Int) : Bool :=
  groups.any (fun g => acceptedB nodes g && k ∈ validMembers nodes g)

/-- The representative id assigned to `k` by the group loop: the minimum valid
member of the *last* accepted group claiming `k` (later groups overwrite
earlier `idMap` entries). -/
def claimRep (nodes : List Node) (groups : List Group) (k : Int) : Option Int :=
  match groups.reverse.find? (fun g => acceptedB nodes g && k ∈ validMembers nodes g) with
  | some g => some (listMin (validMembers nodes g))
  | none => none

/-- Specification of the final id map: representative for claimed ids,
identity for unclaimed node ids, undefined elsewhere. -/
def idMapSpec (nodes : List Node) (groups : List Group) (k : Int) : Option Int :=
  match claimRep nodes groups k with
  | some r => some r
  | none => if k ∈ nodeIds nodes then some k else none

/-- All candidate output nodes fed into the relevance-resolution map:
merged nodes of accepted groups followed by unclaimed passthrough nodes. -/
def mergeCandidates (nodes : List Node) (groups : List Group) : List Node :=
  (groups.filter (acceptedB nodes)).map (mkMerged nodes) ++
    nodes.filter (fun n => ¬ claimedB nodes groups n.id = true)

@[simp] theorem nodeIds_nil : nodeIds [] = [] := rfl

@[simp] theorem nodeIds_cons (n : Node) (rest : List Node) :
    nodeIds (n :: rest) = n.id :: nodeIds rest := rfl

theorem validMembers_length_le (nodes : List Node) (g : Group) :
    (validMembers nodes g).length ≤ g.memberIds.length :=
  List.length_filter_le _ _

theorem groupStep_rejected (nodes : List Node)
    (acc : List Int × List (Int × Int) × List Node) (g : Group)
    (h : acceptedB nodes g = false) : groupStep nodes acc g = acc := by
  have h' : (validMembers nodes g).length < 2 := by
    simpa [acceptedB, Nat.not_le] using h
  unfold groupStep
  by_cases h1 : g.memberIds.length < 2
  · simp [h1]
  · simp [h1, h']

theorem groupStep_accepted (nodes : List Node)
    (acc : List Int × List (Int × Int) × List Node) (g : Group)
    (h : acceptedB nodes g = true) :
    groupStep nodes acc g =
      (acc.1 ++ validMembers nodes g,
       (validMembers nodes g).foldl
         (fun m id => aset m id (listMin (validMembers nodes g))) acc.2.1,
       acc.2.2 ++ [mkMerged nodes g]) := by
  have h2 : 2 ≤ (validMembers nodes g).length := by simpa [acceptedB] using h
  have h1 : ¬ g.memberIds.length < 2 := by
    have := validMembers_length_le nodes g; omega
  have h2' : ¬ (validMembers nodes g).length < 2 := by omega
  unfold groupStep
  simp [h1, h2']

theorem groupPhase_merged (nodes : List Node) (groups : List Group)
    (a : List Int) (m : List (Int × Int)) (l : List Node) :
    (groups.foldl (groupStep nodes) (a, m, l)).2.2 =
      l ++ (groups.filter (acceptedB nodes)).map (mkMerged nodes) := by
  induction groups generalizing a m l with
  | nil => simp
  | cons g rest ih =>
    cases hg : acceptedB nodes g
    · rw [List.foldl_cons, groupStep_rejected nodes _ g hg]
      simp [hg, ih]
    · rw [List.foldl_cons, groupStep_accepted nodes _ g hg]
      simp [hg, ih]

theorem groupPhase_assigned (nodes : List Node) (groups : List Group)
    (a : List Int) (m : List (Int × Int)) (l : List Node) (k : Int) :
    (k ∈ (groups.foldl (groupStep nodes) (a, m, l)).1) ↔
      k ∈ a ∨ claimedB nodes groups k = true := by
  induction groups generalizing a m l with
  | nil => simp [claimedB]
  | cons g rest ih =>
    cases hg : acceptedB nodes g
    · rw [List.foldl_cons, groupStep_rejected nodes _ g hg, ih]
      simp [claimedB, hg]
    · rw [List.foldl_cons, groupStep_accepted nodes _ g hg, ih]
      simp [claimedB, hg]
      tauto

theorem aget_setAll (members : List Int) (c : Int) (m : List (Int × Int)) (k : Int) :
    aget (members.foldl (fun m id => aset m id c) m) k =
      if k ∈ members then some c else aget m k := by
  induction members generalizing m with
  | nil => simp
  | cons x rest ih =>
    rw [List.foldl_cons, ih]
    by_cases hk : k ∈ rest
    · simp [hk]
    · by_cases hx : x = k
      · subst hx
        simp [hk, aget_aset]
      · have hx' : ¬ k = x := fun h => hx h.symm
        simp [hk, hx, hx', aget_aset]

theorem groupPhase_idMap (nodes : List Node) (groups : List Group)
    (a : List Int) (m : List (Int × Int)) (l : List Node) (k : Int) :
    aget (groups.foldl (groupStep nodes) (a, m, l)).2.1 k =
      (match claimRep nodes groups k with
       | some r => some r
       | none => aget m k) := by
  induction groups generalizing a m l with
  | nil => simp [claimRep]
  | cons g rest ih =>
    have hsplit : claimRep nodes (g :: rest) k =
        (match claimRep nodes rest k with
         | some r => some r
         | none =>
           if acceptedB nodes g && k ∈ validMembers nodes g then
             some (listMin (validMembers nodes g))
           else none) := by
      unfold claimRep
      rw [List.reverse_cons, List.find?_append]
      cases hr : rest.reverse.find?
          (fun g => acceptedB nodes g && k ∈ validMembers nodes g)
      · cases hb : (acceptedB nodes g && (decide (k ∈ validMembers nodes g))) <;>
          simp [Option.or, hb]
      · simp [Option.or]
    cases hg : acceptedB nodes g
    · rw [List.foldl_cons, groupStep_rejected nodes _ g hg, ih, hsplit]
      cases hr : claimRep nodes rest k <;> simp [hr, hg]
    · rw [List.foldl_cons, groupStep_accepted nodes _ g hg, ih, hsplit]
      cases hr : claimRep nodes rest k
      · simp only [hr, aget_setAll, hg]
        by_cases hk : k ∈ validMembers nodes g <;> simp [hk]
      · simp [hr]

theorem mem_assigned_iff (nodes : List Node) (groups : List Group) (k : Int) :
    k ∈ (groupPhase nodes groups).1 ↔ claimedB nodes groups k = true := by
  unfold groupPhase
  rw [groupPhase_assigned]
  simp

theorem claimRep_none_iff (nodes : List Node) (groups : List Group) (k : Int) :
    claimRep nodes groups k = none ↔ claimedB nodes groups k = false := by
  unfold claimRep claimedB
  cases hr : groups.reverse.find?
      (fun g => acceptedB nodes g && k ∈ validMembers nodes g) with
  | none =>
    have h := List.find?_eq_none.mp hr
    simp only [hr]
    simp
    intro g hg
    have := h g (List.mem_reverse.mpr hg)
    simpa using this
  | some g =>
    have h1 := List.find?_some hr
    have h2 := List.mem_reverse.mp (List.mem_of_find?_eq_some hr)
    simp only [hr]
    simp at h1 ⊢
    exact ⟨g, h2, h1.1, h1.2⟩

theorem claimRep_eq_some (nodes : List Node) (groups : List Group) (k r : Int)
    (h : claimRep nodes groups k = some r) :
    ∃ g ∈ groups, acceptedB nodes g = true ∧ k ∈ validMembers nodes g ∧
      r = listMin (validMembers nodes g) := by
  unfold claimRep at h
  cases hr : groups.reverse.find?
      (fun g => acceptedB nodes g && k ∈ validMembers nodes g) with
  | none => rw [hr] at h; simp at h
  | some g =>
    rw [hr] at h
    simp at h
    have h1 := List.find?_some hr
    have h2 := List.mem_reverse.mp (List.mem_of_find?_eq_some hr)
    simp at h1
    exact ⟨g, h2, h1.1, h1.2, h.symm⟩

theorem aget_idFold (ns : List Node) (m : List (Int × Int)) (k : Int) :
    aget (ns.foldl (fun m n => aset m n.id n.id) m) k =
      if k ∈ nodeIds ns then some k else aget m k := by
  induction ns generalizing m with
  | nil => simp
  | cons n rest ih =>
    rw [List.foldl_cons, ih]
    by_cases hk : k ∈ nodeIds rest
    · simp [hk]
    · by_cases hn : n.id = k
      · simp [hk, hn, aget_aset]
      · have hn' : ¬ k = n.id := fun h => hn h.symm
        simp [hk, hn, hn', aget_aset]

theorem mem_nodeIds_passthrough (nodes : List Node) (groups : List Group) (k : Int) :
    k ∈ nodeIds (passthroughOf nodes groups) ↔
      k ∈ nodeIds nodes ∧ claimedB nodes groups k = false := by
  constructor
  · intro h
    obtain ⟨n, hn, rfl⟩ := List.mem_map.mp h
    have hf := List.mem_filter.mp hn
    refine ⟨List.mem_map_of_mem _ hf.1, ?_⟩
    have h2 := hf.2
    rw [decide_eq_true_eq] at h2
    rw [mem_assigned_iff] at h2
    simpa using h2
  · rintro ⟨h1, h2⟩
    obtain ⟨n, hn, rfl⟩ := List.mem_map.mp h1
    apply List.mem_map_of_mem
    unfold passthroughOf
    rw [List.mem_filter]
    refine ⟨hn, ?_⟩
    rw [decide_eq_true_eq, mem_assigned_iff, h2]
    simp

/-- The final id map of `mergeNodes` agrees with `idMapSpec` everywhere. -/
theorem mergeNodes_idMap (nodes : List Node) (groups : List Group) (k : Int) :
    aget (mergeNodes nodes groups).2 k = idMapSpec nodes groups k := by
  unfold mergeNodes idMapSpec
  simp only [aget_idFold]
  have hg : aget (groupPhase nodes groups).2.1 k =
      (match claimRep nodes groups k with
       | some r => some r
       | none => aget ([] : List (Int × Int)) k) := groupPhase_idMap nodes groups [] [] [] k
  cases hr : claimRep nodes groups k with
  | none =>
    have hcl : claimedB nodes groups k = false := (claimRep_none_iff nodes groups k).mp hr
    rw [hr] at hg
    simp at hg
    by_cases hk : k ∈ nodeIds nodes
    · have : k ∈ nodeIds (passthroughOf nodes groups) :=
        (mem_nodeIds_passthrough nodes groups k).mpr ⟨hk, hcl⟩
      simp [this, hk]
    · have : ¬ k ∈ nodeIds (passthroughOf nodes groups) := by
        rw [mem_nodeIds_passthrough]
        tauto
      simp [this, hk, hg]
  | some r =>
    have hcl : ¬ claimedB nodes groups k = false := by
      rw [← claimRep_none_iff, hr]
      simp
    have : ¬ k ∈ nodeIds (passthroughOf nodes groups) := by
      rw [mem_nodeIds_passthrough]
      tauto
    rw [hr] at hg
    simp [this, hg]

/-! ### The `byId` relevance-resolution loop -/

/-- The effect of `relStep` at a single key: a running relevance-argmax,
first entry winning ties (the JS comparison is strict `>`). -/
def pickR (acc : Option Node) (n : Node) : Option Node :=
  match acc with
  | none => some n
  | some p => if p.relevance < n.relevance then some n else some p

/-- Folding `pickR` over the candidates whose id is `k`. -/
def bestAt (l : List Node) (k : Int) (b : Option Node) : Option Node :=
  l.foldl (fun acc n => if n.id = k then pickR acc n else acc) b

@[simp] theorem bestAt_nil (k : Int) (b : Option Node) : bestAt [] k b = b := rfl

theorem bestAt_cons (n : Node) (rest : List Node) (k : Int) (b : Option Node) :
    bestAt (n :: rest) k b = bestAt rest k (if n.id = k then pickR b n else b) := by
  unfold bestAt
  rw [List.foldl_cons]

theorem pickR_isSome (b : Option Node) (n : Node) : (pickR b n).isSome := by
  unfold pickR
  cases b with
  | none => rfl
  | some p => by_cases hrel : p.relevance < n.relevance <;> simp [hrel]

theorem pickR_eq_some (b : Option Node) (n v : Node) (h : pickR b n = some v) :
    b = some v ∨ v = n := by
  unfold pickR at h
  cases b with
  | none => simp at h; exact Or.inr h.symm
  | some p =>
    by_cases hrel : p.relevance < n.relevance
    · simp [hrel] at h; exact Or.inr h.symm
    · simp [hrel] at h; exact Or.inl (by rw [h])

theorem pickR_le (b : Option Node) (n v : Node) (h : pickR b n = some v) :
    n.relevance ≤ v.relevance := by
  unfold pickR at h
  cases b with
  | none => simp at h; rw [h]
  | some p =>
    by_cases hrel : p.relevance < n.relevance
    · simp [hrel] at h; rw [h]
    · simp [hrel] at h; rw [← h]; omega

theorem pickR_le_prev (p n v : Node) (h : pickR (some p) n = some v) :
    p.relevance ≤ v.relevance := by
  unfold pickR at h
  by_cases hrel : p.relevance < n.relevance
  · simp [hrel] at h; rw [← h]; omega
  · simp [hrel] at h; rw [← h]

theorem aget_relStep (m : List (Int × Node)) (n : Node) (k : Int) :
    aget (relStep m n) k =
      if n.id = k then pickR (aget m k) n else aget m k := by
  by_cases hn : n.id = k
  · subst hn
    simp only [relStep, if_pos rfl]
    cases hm : aget m n.id with
    | none => simp [hm, aget_aset, pickR]
    | some prev =>
      by_cases hrel : prev.relevance < n.relevance
      · simp [hm, hrel, aget_aset, pickR]
      · simp [hm, hrel, pickR]
  · simp only [relStep, if_neg hn]
    cases hm : aget m n.id with
    | none => simp [hm, aget_aset, hn]
    | some prev =>
      by_cases hrel : prev.relevance < n.relevance
      · simp [hm, hrel, aget_aset, hn]
      · simp [hm, hrel]

theorem aget_relFold (l : List Node) (m : List (Int × Node)) (k : Int) :
    aget (l.foldl relStep m) k = bestAt l k (aget m k) := by
  induction l generalizing m with
  | nil => simp
  | cons n rest ih =>
    rw [List.foldl_cons, ih, bestAt_cons, aget_relStep]

theorem bestAt_eq_some (k : Int) (v : Node) :
    ∀ (l : List Node) (b : Option Node), bestAt l k b = some v →
      b = some v ∨ (v ∈ l ∧ v.id = k) := by
  intro l
  induction l with
  | nil => intro b h; exact Or.inl h
  | cons n rest ih =>
    intro b h
    rw [bestAt_cons] at h
    rcases ih _ h with h1 | h1
    · by_cases hn : n.id = k
      · rw [if_pos hn] at h1
        rcases pickR_eq_some b n v h1 with h2 | h2
        · exact Or.inl h2
        · exact Or.inr ⟨by rw [h2]; exact List.mem_cons_self n rest, by rw [h2, hn]⟩
      · rw [if_neg hn] at h1
        exact Or.inl h1
    · exact Or.inr ⟨List.mem_cons_of_mem _ h1.1, h1.2⟩

theorem bestAt_isSome (k : Int) :
    ∀ (l : List Node) (b : Option Node), ((∃ n ∈ l, n.id = k) ∨ b.isSome) →
      (bestAt l k b).isSome := by
  intro l
  induction l with
  | nil =>
    intro b h
    simpa using h.resolve_left (by simp)
  | cons n rest ih =>
    intro b h
    rw [bestAt_cons]
    by_cases hn : n.id = k
    · rw [if_pos hn]
      exact ih _ (Or.inr (pickR_isSome b n))
    · rw [if_neg hn]
      apply ih
      rcases h with ⟨x, hx, hxk⟩ | hb
      · rcases List.mem_cons.mp hx with rfl | hx'
        · exact absurd hxk hn
        · exact Or.inl ⟨x, hx', hxk⟩
      · exact Or.inr hb

theorem bestAt_isSome_iff (k : Int) (l : List Node) (b : Option Node) :
    (bestAt l k b).isSome ↔ (∃ n ∈ l, n.id = k) ∨ b.isSome := by
  constructor
  · intro h
    obtain ⟨v, hv⟩ := Option.isSome_iff_exists.mp h
    rcases bestAt_eq_some k v l b hv with h1 | h1
    · exact Or.inr (by simp [h1])
    · exact Or.inl ⟨v, h1.1, h1.2⟩
  · exact bestAt_isSome k l b

theorem bestAt_le_base (k : Int) (v : Node) :
    ∀ (l : List Node) (p : Node), bestAt l k (some p) = some v →
      p.relevance ≤ v.relevance := by
  intro l
  induction l with
  | nil =>
    intro p h
    simp at h
    rw [← h]
  | cons n rest ih =>
    intro p h
    rw [bestAt_cons] at h
    by_cases hn : n.id = k
    · rw [if_pos hn] at h
      cases hq : pickR (some p) n with
      | none => exact absurd (hq ▸ pickR_isSome (some p) n) (by simp)
      | some q =>
        rw [hq] at h
        have h1 := pickR_le_prev p n q hq
        have h2 := ih q h
        omega
    · rw [if_neg hn] at h
      exact ih p h

theorem bestAt_ge (k : Int) (v : Node) :
    ∀ (l : List Node) (b : Option Node), bestAt l k b = some v →
      ∀ n ∈ l, n.id = k → n.relevance ≤ v.relevance := by
  intro l
  induction l with
  | nil => intro b h n hn; simp at hn
  | cons m rest ih =>
    intro b h n hn hnk
    rw [bestAt_cons] at h
    rcases List.mem_cons.mp hn with rfl | hn'
    · rw [if_pos hnk] at h
      cases hq : pickR b n with
      | none => exact absurd (hq ▸ pickR_isSome b n) (by simp)
      | some q =>
        rw [hq] at h
        have h1 := pickR_le b n q hq
        have h2 := bestAt_le_base k v rest q h
        omega
    · exact ih _ h n hn' hnk

theorem bestAt_const (k : Int) (v : Node) :
    ∀ (l : List Node), (∀ m ∈ l, m.id = k → m = v) → bestAt l k (some v) = some v := by
  intro l
  induction l with
  | nil => intro _; rfl
  | cons n rest ih =>
    intro h
    rw [bestAt_cons]
    by_cases hn : n.id = k
    · have he : n = v := h n (List.mem_cons_self n rest) hn
      subst he
      rw [if_pos hn]
      have hp : pickR (some n) n = some n := by unfold pickR; simp
      rw [hp]
      exact ih (fun m hm hmk => h m (List.mem_cons_of_mem _ hm) hmk)
    · rw [if_neg hn]
      exact ih (fun m hm hmk => h m (List.mem_cons_of_mem _ hm) hmk)

theorem bestAt_unique (k : Int) (v : Node) :
    ∀ (l : List Node), v ∈ l → v.id = k → (∀ m ∈ l, m.id = k → m = v) →
      bestAt l k none = some v := by
  intro l
  induction l with
  | nil => intro h; simp at h
  | cons n rest ih =>
    intro hv hvk hall
    rw [bestAt_cons]
    rcases List.mem_cons.mp hv with rfl | hv'
    · rw [if_pos hvk]
      have hp : pickR none v = some v := rfl
      rw [hp]
      exact bestAt_const k v rest (fun m hm hmk => hall m (List.mem_cons_of_mem _ hm) hmk)
    · by_cases hn : n.id = k
      · have he : n = v := hall n (List.mem_cons_self n rest) hn
        subst he
        rw [if_pos hn]
        have hp : pickR none n = some n := rfl
        rw [hp]
        exact bestAt_const k n rest (fun m hm hmk => hall m (List.mem_cons_of_mem _ hm) hmk)
      · rw [if_neg hn]
        exact ih hv' hvk (fun m hm hmk => hall m (List.mem_cons_of_mem _ hm) hmk)

/-- Invariant of the `byId` map: keys are distinct and each stored node
carries its key as id. -/
def byIdInv (m : List (Int × Node)) : Prop :=
  (akeys m).Nodup ∧ ∀ p ∈ m, p.2.id = p.1

theorem mem_aset {α : Type} (m : List (Int × α)) (k : Int) (v : α) (p : Int × α)
    (h : p ∈ aset m k v) : p = (k, v) ∨ p ∈ m := by
  induction m with
  | nil => simp at h; exact Or.inl (by simp [h])
  | cons q rest ih =>
    by_cases hq : q.1 = k
    · simp [hq] at h
      rcases h with h | h
      · exact Or.inl (by simp [h])
      · exact Or.inr (List.mem_cons_of_mem _ h)
    · simp [hq] at h
      rcases h with h | h
      · exact Or.inr (by simp [h])
      · rcases ih h with h1 | h1
        · exact Or.inl h1
        · exact Or.inr (List.mem_cons_of_mem _ h1)

theorem byIdInv_relStep (m : List (Int × Node)) (n : Node) (h : byIdInv m) :
    byIdInv (relStep m n) := by
  have haset : byIdInv (aset m n.id n) := by
    refine ⟨nodup_akeys_aset _ _ _ h.1, ?_⟩
    intro p hp
    rcases mem_aset _ _ _ _ hp with rfl | hp'
    · rfl
    · exact h.2 p hp'
  unfold relStep
  cases hm : aget m n.id with
  | none => exact haset
  | some prev =>
    by_cases hrel : prev.relevance < n.relevance
    · simpa [hrel] using haset
    · simpa [hrel] using h

theorem byIdInv_fold (l : List Node) (m : List (Int × Node)) (h : byIdInv m) :
    byIdInv (l.foldl relStep m) := by
  induction l generalizing m with
  | nil => exact h
  | cons n rest ih =>
    rw [List.foldl_cons]
    exact ih _ (byIdInv_relStep m n h)

/-! ### Putting the pieces of `mergeNodes` together -/

theorem candidates_eq (nodes : List Node) (groups : List Group) :
    (groupPhase nodes groups).2.2 ++ passthroughOf nodes groups =
      mergeCandidates nodes groups := by
  unfold mergeCandidates passthroughOf
  congr 1
  · have h := groupPhase_merged nodes groups [] [] []
    simpa [groupPhase] using h
  · apply List.filter_congr
    intro n hn
    rw [decide_eq_decide, mem_assigned_iff]

theorem mergeNodes_fst (nodes : List Node) (groups : List Group) :
    (mergeNodes nodes groups).1 =
      avalues ((mergeCandidates nodes groups).foldl relStep []) := by
  unfold mergeNodes
  rw [candidates_eq]

theorem byIdInv_merge (nodes : List Node) (groups : List Group) :
    byIdInv ((mergeCandidates nodes groups).foldl relStep []) :=
  byIdInv_fold _ [] ⟨List.nodup_nil, by simp⟩

theorem aget_merge_byId (nodes : List Node) (groups : List Group) (k : Int) :
    aget ((mergeCandidates nodes groups).foldl relStep []) k =
      bestAt (mergeCandidates nodes groups) k none := by
  rw [aget_relFold]
  rfl

/-- The ids of the merged output are exactly the keys of the `byId` map,
hence distinct. -/
theorem mergeNodes_ids_nodup (nodes : List Node) (groups : List Group) :
    ((mergeNodes nodes groups).1.map (·.id)).Nodup := by
  rw [mergeNodes_fst]
  have hinv := byIdInv_merge nodes groups
  have heq : (avalues ((mergeCandidates nodes groups).foldl relStep [])).map (·.id) =
      akeys ((mergeCandidates nodes groups).foldl relStep []) := by
    unfold avalues akeys
    rw [List.map_map]
    exact List.map_congr_left (fun p hp => hinv.2 p hp)
  rw [heq]
  exact hinv.1

theorem mem_mergeNodes_iff (nodes : List Node) (groups : List Group) (v : Node) :
    v ∈ (mergeNodes nodes groups).1 ↔
      ∃ k, bestAt (mergeCandidates nodes groups) k none = some v := by
  rw [mergeNodes_fst]
  rw [mem_avalues_iff_aget _ (byIdInv_merge nodes groups).1]
  constructor
  · rintro ⟨k, hk⟩
    exact ⟨k, by rw [← aget_merge_byId]; exact hk⟩
  · rintro ⟨k, hk⟩
    exact ⟨k, by rw [aget_merge_byId]; exact hk⟩

theorem mergeNodes_id_mem_iff (nodes : List Node) (groups : List Group) (k : Int) :
    k ∈ (mergeNodes nodes groups).1.map (·.id) ↔
      ∃ n ∈ mergeCandidates nodes groups, n.id = k := by
  have hinv := byIdInv_merge nodes groups
  rw [mergeNodes_fst]
  have heq : (avalues ((mergeCandidates nodes groups).foldl relStep [])).map (·.id) =
      akeys ((mergeCandidates nodes groups).foldl relStep []) := by
    unfold avalues akeys
    rw [List.map_map]
    exact List.map_congr_left (fun p hp => hinv.2 p hp)
  rw [heq, ← aget_isSome_iff, aget_merge_byId, bestAt_isSome_iff]
  simp

theorem avalues_filter_aget (m : List (Int × Node)) (hinv : byIdInv m) (k : Int)
    (v : Node) (h : aget m k = some v) :
    (avalues m).filter (fun n => n.id = k) = [v] := by
  induction m with
  | nil => simp at h
  | cons p rest ih =>
    have hnd : p.1 ∉ akeys rest ∧ (akeys rest).Nodup := by
      have := hinv.1
      simpa using this
    have hinv' : byIdInv rest :=
      ⟨hnd.2, fun q hq => hinv.2 q (List.mem_cons_of_mem _ hq)⟩
    by_cases hp : p.1 = k
    · simp [hp] at h
      have hvid : v.id = k := by
        rw [← h, hinv.2 p (List.mem_cons_self p rest), hp]
      have hrest : (avalues rest).filter (fun n => n.id = k) = [] := by
        apply List.filter_eq_nil_iff.mpr
        intro n hn
        obtain ⟨q, hq, rfl⟩ := List.mem_map.mp hn
        have hq1 : q.2.id = q.1 := hinv.2 q (List.mem_cons_of_mem _ hq)
        rw [hq1]
        have hqk : q.1 ∈ akeys rest := mem_akeys_of_mem hq
        simp
        intro he
        apply hnd.1
        rw [hp, ← he]
        exact hqk
      simp [h, hvid, hrest]
    · simp [hp] at h
      have hid : ¬ p.2.id = k := by
        rw [hinv.2 p (List.mem_cons_self p rest)]
        exact hp
      simp [hid]
      exact ih hinv' h

theorem avalues_filter_none (m : List (Int × Node)) (hinv : byIdInv m) (k : Int)
    (h : aget m k = none) :
    (avalues m).filter (fun n => n.id = k) = [] := by
  apply List.filter_eq_nil_iff.mpr
  intro n hn
  obtain ⟨q, hq, rfl⟩ := List.mem_map.mp hn
  have hqid : q.2.id = q.1 := hinv.2 q hq
  rw [hqid]
  have hkm : q.1 ∈ akeys m := mem_akeys_of_mem hq
  simp
  intro he
  rw [he] at hkm
  exact (aget_eq_none_iff m k).mp h hkm

/-! ### `Math.min` / `Math.max` over member lists -/

theorem foldl_min_mem : ∀ (xs : List Int) (a : Int), xs.foldl min a ∈ a :: xs := by
  intro xs
  induction xs with
  | nil => intro a; simp
  | cons y ys ih =>
    intro a
    rw [List.foldl_cons]
    rcases min_choice a y with h | h <;>
      rcases List.mem_cons.mp (ih (min a y)) with h1 | h1 <;>
        simp [h1, h ▸ h1] <;> simp_all

theorem foldl_min_le_init : ∀ (xs : List Int) (a : Int), xs.foldl min a ≤ a := by
  intro xs
  induction xs with
  | nil => intro a; simp
  | cons y ys ih =>
    intro a
    rw [List.foldl_cons]
    exact le_trans (ih (min a y)) (min_le_left a y)

theorem foldl_min_le : ∀ (xs : List Int) (a x : Int), x ∈ xs → xs.foldl min a ≤ x := by
  intro xs
  induction xs with
  | nil => intro a x hx; simp at hx
  | cons y ys ih =>
    intro a x hx
    rw [List.foldl_cons]
    rcases List.mem_cons.mp hx with rfl | hx'
    · exact le_trans (foldl_min_le_init ys (min a x)) (min_le_right a x)
    · exact ih (min a y) x hx'

theorem listMin_mem (l : List Int) (h : l ≠ []) : listMin l ∈ l := by
  cases l with
  | nil => exact absurd rfl h
  | cons x xs => exact foldl_min_mem xs x

theorem listMin_le (l : List Int) (x : Int) (hx : x ∈ l) : listMin l ≤ x := by
  cases l with
  | nil => simp at hx
  | cons y ys =>
    rcases List.mem_cons.mp hx with rfl | hx'
    · exact foldl_min_le_init ys x
    · exact foldl_min_le ys y x hx'

theorem foldl_max_mem : ∀ (xs : List Int) (a : Int), xs.foldl max a ∈ a :: xs := by
  intro xs
  induction xs with
  | nil => intro a; simp
  | cons y ys ih =>
    intro a
    rw [List.foldl_cons]
    rcases max_choice a y with h | h <;>
      rcases List.mem_cons.mp (ih (max a y)) with h1 | h1 <;>
        simp [h1, h ▸ h1] <;> simp_all

theorem foldl_max_ge_init : ∀ (xs : List Int) (a : Int), a ≤ xs.foldl max a := by
  intro xs
  induction xs with
  | nil => intro a; simp
  | cons y ys ih =>
    intro a
    rw [List.foldl_cons]
    exact le_trans (le_max_left a y) (ih (max a y))

theorem foldl_max_ge : ∀ (xs : List Int) (a x : Int), x ∈ xs → x ≤ xs.foldl max a := by
  intro xs
  induction xs with
  | nil => intro a x hx; simp at hx
  | cons y ys ih =>
    intro a x hx
    rw [List.foldl_cons]
    rcases List.mem_cons.mp hx with rfl | hx'
    · exact le_trans (le_max_right a x) (foldl_max_ge_init ys (max a x))
    · exact ih (max a y) x hx'

theorem listMax_mem (l : List Int) (h : l ≠ []) : listMax l ∈ l := by
  cases l with
  | nil => exact absurd rfl h
  | cons x xs => exact foldl_max_mem xs x

theorem listMax_ge (l : List Int) (x : Int) (hx : x ∈ l) : x ≤ listMax l := by
  cases l with
  | nil => simp at hx
  | cons y ys =>
    rcases List.mem_cons.mp hx with rfl | hx'
    · exact foldl_max_ge_init ys x
    · exact foldl_max_ge ys y x hx'

/-! ### Membership helpers -/

theorem mem_nodeIds (nodes : List Node) (k : Int) :
    k ∈ nodeIds nodes ↔ ∃ n ∈ nodes, n.id = k :=
  List.mem_map

theorem mem_validMembers (nodes : List Node) (g : Group) (k : Int) :
    k ∈ validMembers nodes g ↔ k ∈ g.memberIds ∧ k ∈ nodeIds nodes := by
  unfold validMembers
  rw [List.mem_filter]
  simp

theorem findRelevance_eq (nodes : List Node) (n : Node)
    (hnd : (nodeIds nodes).Nodup) (hn : n ∈ nodes) :
    findRelevance nodes n.id = n.relevance := by
  induction nodes with
  | nil => simp at hn
  | cons m rest ih =>
    simp only [nodeIds_cons, List.nodup_cons] at hnd
    rcases List.mem_cons.mp hn with rfl | hn'
    · simp [findRelevance]
    · have hmem : n.id ∈ nodeIds rest := (mem_nodeIds rest n.id).mpr ⟨n, hn', rfl⟩
      have hne : ¬ m.id = n.id := fun he => hnd.1 (he ▸ hmem)
      simp only [findRelevance, List.find?_cons]
      rw [show (decide (m.id = n.id)) = false by simp [hne]]
      exact ih hnd.2 hn'

/-! ## EdgeRewirer (`rewireEdges` in `src/optimize.js`) -/

/-- Canonical undirected key `(min, max)` of an edge (the JS code uses the
string `` `${min}-${max}` ``, which is in bijection with this pair). -/
def edgeKey (e : Edge) : Int × Int :=
  (min e.nodeID1 e.nodeID2, max e.nodeID1 e.nodeID2)

/-- One iteration of the edge loop in `rewireEdges`; the accumulator is
`(out, seen)`. -/
def rewireStep (idMap : List (Int × Int)) (acc : List Edge × List (Int × Int))
    (e : Edge) : List Edge × List (Int × Int) :=
  match aget idMap e.nodeID1, aget idMap e.nodeID2 with
  | some a, some b =>
    if a = b then acc
    else
      if (min a b, max a b) ∈ acc.2 then acc
      else (acc.1 ++ [⟨min a b, max a b, e.reasoning⟩], acc.2 ++ [(min a b, max a b)])
  | _, _ => acc

/-- `rewireEdges(edges, idMap)` from `src/optimize.js`. -/
def rewireEdges (edges : List Edge) (idMap : List (Int × Int)) : List Edge :=
  (edges.foldl (rewireStep idMap) ([], [])).1

/-- Spec §4.3, per edge: translate both endpoints through `idMap`, drop the
edge when an endpoint is absent, drop it when the translated endpoints
coincide, and canonicalise the surviving pair. -/
def translateEdge (idMap : List (Int × Int)) (e : Edge) : Option Edge :=
  match aget idMap e.nodeID1, aget idMap e.nodeID2 with
  | some a, some b =>
    if a = b then none else some ⟨min a b, max a b, e.reasoning⟩
  | _, _ => none

/-- Spec §4.3: deduplicate on the canonical key keeping the first occurrence
in input order. -/
def dedupFirst : List Edge → List Edge
  | [] => []
  | e :: rest => e :: dedupFirst (rest.filter (fun f => ¬ edgeKey f = edgeKey e))
termination_by l => l.length
decreasing_by
  simp only [List.length_cons]
  exact Nat.lt_succ_of_le (List.length_filter_le _ _)

/-- `EdgeRewirer` as described by the spec's words: translate-and-drop, then
first-wins dedup on the canonical key. -/
def specRewire (edges : List Edge) (idMap : List (Int × Int)) : List Edge :=
  dedupFirst (edges.filterMap (translateEdge idMap))

/-- Forward-recursion form of the `rewireEdges` loop. -/
def rewireGo (idMap : List (Int × Int)) : List (Int × Int) → List Edge → List Edge
  | _, [] => []
  | seen, e :: rest =>
    match translateEdge idMap e with
    | none => rewireGo idMap seen rest
    | some f =>
      if edgeKey f ∈ seen then rewireGo idMap seen rest
      else f :: rewireGo idMap (seen ++ [edgeKey f]) rest

theorem edgeKey_mk_canon (a b : Int) (r : String) :
    edgeKey ⟨min a b, max a b, r⟩ = (min a b, max a b) := by
  have hle : min a b ≤ max a b := min_le_max
  simp [edgeKey, min_eq_left hle, max_eq_right hle]

theorem rewire_fold_go (idMap : List (Int × Int)) :
    ∀ (edges : List Edge) (out : List Edge) (seen : List (Int × Int)),
      (edges.foldl (rewireStep idMap) (out, seen)).1 =
        out ++ rewireGo idMap seen edges := by
  intro edges
  induction edges with
  | nil =>
    intro out seen
    simp [rewireGo]
  | cons e rest ih =>
    intro out seen
    rw [List.foldl_cons]
    cases h1 : aget idMap e.nodeID1 with
    | none =>
      have hs : rewireStep idMap (out, seen) e = (out, seen) := by
        simp [rewireStep, h1]
      have ht : translateEdge idMap e = none := by
        simp [translateEdge, h1]
      rw [hs, ih]
      simp [rewireGo, ht]
    | some a =>
      cases h2 : aget idMap e.nodeID2 with
      | none =>
        have hs : rewireStep idMap (out, seen) e = (out, seen) := by
          simp [rewireStep, h1, h2]
        have ht : translateEdge idMap e = none := by
          simp [translateEdge, h1, h2]
        rw [hs, ih]
        simp [rewireGo, ht]
      | some b =>
        by_cases hab : a = b
        · have hs : rewireStep idMap (out, seen) e = (out, seen) := by
            simp [rewireStep, h1, h2, hab]
          have ht : translateEdge idMap e = none := by
            simp [translateEdge, h1, h2, hab]
          rw [hs, ih]
          simp [rewireGo, ht]
        · have ht : translateEdge idMap e =
              some ⟨min a b, max a b, e.reasoning⟩ := by
            simp [translateEdge, h1, h2, hab]
          by_cases hseen : (min a b, max a b) ∈ seen
          · have hs : rewireStep idMap (out, seen) e = (out, seen) := by
              simp [rewireStep, h1, h2, hab, hseen]
            rw [hs, ih]
            simp [rewireGo, ht, edgeKey_mk_canon, hseen]
          · have hs : rewireStep idMap (out, seen) e =
                (out ++ [⟨min a b, max a b, e.reasoning⟩],
                 seen ++ [(min a b, max a b)]) := by
              simp [rewireStep, h1, h2, hab, hseen]
            rw [hs, ih]
            simp [rewireGo, ht, edgeKey_mk_canon, hseen]

theorem rewireGo_mem (idMap : List (Int × Int)) :
    ∀ (edges : List Edge) (seen : List (Int × Int)) (f : Edge),
      f ∈ rewireGo idMap seen edges →
        (∃ e ∈ edges, translateEdge idMap e = some f) ∧ edgeKey f ∉ seen := by
  intro edges
  induction edges with
  | nil => intro seen f h; simp [rewireGo] at h
  | cons e rest ih =>
    intro seen f h
    cases ht : translateEdge idMap e with
    | none =>
      rw [show rewireGo idMap seen (e :: rest) = rewireGo idMap seen rest by
        simp [rewireGo, ht]] at h
      obtain ⟨⟨g, hg, hge⟩, hseen⟩ := ih seen f h
      exact ⟨⟨g, List.mem_cons_of_mem _ hg, hge⟩, hseen⟩
    | some f' =>
      by_cases hseen : edgeKey f' ∈ seen
      · rw [show rewireGo idMap seen (e :: rest) = rewireGo idMap seen rest by
          simp [rewireGo, ht, hseen]] at h
        obtain ⟨⟨g, hg, hge⟩, hs⟩ := ih seen f h
        exact ⟨⟨g, List.mem_cons_of_mem _ hg, hge⟩, hs⟩
      · rw [show rewireGo idMap seen (e :: rest) =
            f' :: rewireGo idMap (seen ++ [edgeKey f']) rest by
          simp [rewireGo, ht, hseen]] at h
        rcases List.mem_cons.mp h with rfl | h'
        · exact ⟨⟨e, List.mem_cons_self e rest, ht⟩, hseen⟩
        · obtain ⟨⟨g, hg, hge⟩, hs⟩ := ih _ f h'
          exact ⟨⟨g, List.mem_cons_of_mem _ hg, hge⟩,
            fun hc => hs (List.mem_append_left _ hc)⟩

theorem rewireGo_pairwise (idMap : List (Int × Int)) :
    ∀ (edges : List Edge) (seen : List (Int × Int)),
      (rewireGo idMap seen edges).Pairwise (fun a b => edgeKey a ≠ edgeKey b) := by
  intro edges
  induction edges with
  | nil => intro seen; simp [rewireGo]
  | cons e rest ih =>
    intro seen
    cases ht : translateEdge idMap e with
    | none => simpa [rewireGo, ht] using ih seen
    | some f' =>
      by_cases hseen : edgeKey f' ∈ seen
      · simpa [rewireGo, ht, hseen] using ih seen
      · rw [show rewireGo idMap seen (e :: rest) =
            f' :: rewireGo idMap (seen ++ [edgeKey f']) rest by
          simp [rewireGo, ht, hseen]]
        refine List.Pairwise.cons ?_ (ih _)
        intro b hb he
        have hnot := (rewireGo_mem idMap rest _ b hb).2
        apply hnot
        rw [← he]
        exact List.mem_append_right _ (by simp)

theorem translateEdge_some (idMap : List (Int × Int)) (e f : Edge)
    (h : translateEdge idMap e = some f) :
    ∃ a b, aget idMap e.nodeID1 = some a ∧ aget idMap e.nodeID2 = some b ∧
      ¬ a = b ∧ f = ⟨min a b, max a b, e.reasoning⟩ := by
  unfold translateEdge at h
  cases h1 : aget idMap e.nodeID1 with
  | none => rw [h1] at h; simp at h
  | some a =>
    cases h2 : aget idMap e.nodeID2 with
    | none => rw [h1, h2] at h; simp at h
    | some b =>
      rw [h1, h2] at h
      by_cases hab : a = b
      · simp [hab] at h
      · simp [hab] at h
        exact ⟨a, b, rfl, rfl, hab, h.symm⟩

theorem translateEdge_no_loop (idMap : List (Int × Int)) (e f : Edge)
    (h : translateEdge idMap e = some f) : f.nodeID1 ≠ f.nodeID2 := by
  obtain ⟨a, b, _, _, hab, rfl⟩ := translateEdge_some idMap e f h
  simpa using ne_of_lt (min_lt_max.mpr hab)

theorem rewireGo_eq_dedup (idMap : List (Int × Int)) :
    ∀ (edges : List Edge) (seen : List (Int × Int)),
      rewireGo idMap seen edges =
        dedupFirst ((edges.filterMap (translateEdge idMap)).filter
          (fun f => ¬ edgeKey f ∈ seen)) := by
  intro edges
  induction edges with
  | nil => intro seen; simp [rewireGo, dedupFirst]
  | cons e rest ih =>
    intro seen
    cases ht : translateEdge idMap e with
    | none =>
      rw [show rewireGo idMap seen (e :: rest) = rewireGo idMap seen rest by
        simp [rewireGo, ht]]
      rw [ih]
      simp [List.filterMap_cons, ht]
    | some f =>
      by_cases hseen : edgeKey f ∈ seen
      · rw [show rewireGo idMap seen (e :: rest) = rewireGo idMap seen rest by
          simp [rewireGo, ht, hseen]]
        rw [ih]
        simp [List.filterMap_cons, ht, hseen]
      · rw [show rewireGo idMap seen (e :: rest) =
            f :: rewireGo idMap (seen ++ [edgeKey f]) rest by
          simp [rewireGo, ht, hseen]]
        rw [ih]
        have hhead : ((e :: rest).filterMap (translateEdge idMap)).filter
            (fun g => ¬ edgeKey g ∈ seen) =
            f :: (rest.filterMap (translateEdge idMap)).filter
              (fun g => ¬ edgeKey g ∈ seen) := by
          simp [List.filterMap_cons, ht, hseen]
        rw [hhead]
        rw [show dedupFirst (f :: (rest.filterMap (translateEdge idMap)).filter
            (fun g => ¬ edgeKey g ∈ seen)) =
            f :: dedupFirst (((rest.filterMap (translateEdge idMap)).filter
              (fun g => ¬ edgeKey g ∈ seen)).filter
                (fun g => ¬ edgeKey g = edgeKey f)) from by
          simp [dedupFirst]]
        congr 1
        rw [List.filter_filter]
        apply congrArg
        apply List.filter_congr
        intro g hg
        simp only [List.mem_append, List.mem_singleton, decide_not]
        cases hks : decide (edgeKey g ∈ seen) <;>
          cases hkf : decide (edgeKey g = edgeKey f) <;>
            simp_all

theorem rewireEdges_eq_spec (edges : List Edge) (idMap : List (Int × Int)) :
    rewireEdges edges idMap = specRewire edges idMap := by
  unfold rewireEdges specRewire
  rw [rewire_fold_go, rewireGo_eq_dedup]
  simp

theorem rewireEdges_mem (edges : List Edge) (idMap : List (Int × Int)) (f : Edge)
    (h : f ∈ rewireEdges edges idMap) :
    ∃ e ∈ edges, translateEdge idMap e = some f := by
  unfold rewireEdges at h
  rw [rewire_fold_go] at h
  simp at h
  exact (rewireGo_mem idMap edges [] f h).1

/-! ## Further `mergeNodes` helpers -/

theorem mkMerged_id (nodes : List Node) (g : Group) :
    (mkMerged nodes g).id = listMin (validMembers nodes g) := rfl

theorem mkMerged_title (nodes : List Node) (g : Group) :
    (mkMerged nodes g).title =
      jsTrim (jsOr g.label ("Merged " ++ joinPlus (validMembers nodes g))) := rfl

theorem mkMerged_summary (nodes : List Node) (g : Group) :
    (mkMerged nodes g).summary =
      jsTrim (jsOr g.summary
        (jsTrim (jsOr g.label ("Merged " ++ joinPlus (validMembers nodes g))))) := rfl

theorem mkMerged_papers (nodes : List Node) (g : Group) :
    (mkMerged nodes g).papers = [] := rfl

theorem mkMerged_relevance (nodes : List Node) (g : Group) :
    (mkMerged nodes g).relevance =
      listMax ((validMembers nodes g).map (findRelevance nodes)) := rfl

theorem validMembers_ne_nil (nodes : List Node) (g : Group)
    (hacc : acceptedB nodes g = true) : validMembers nodes g ≠ [] := by
  have h2 : 2 ≤ (validMembers nodes g).length := by simpa [acceptedB] using hacc
  intro h
  rw [h] at h2
  simp at h2

theorem claimed_of_accepted_mem (nodes : List Node) (groups : List Group) (g : Group)
    (hg : g ∈ groups) (hacc : acceptedB nodes g = true) (k : Int)
    (hk : k ∈ validMembers nodes g) : claimedB nodes groups k = true := by
  unfold claimedB
  rw [List.any_eq_true]
  exact ⟨g, hg, by simp [hacc, hk]⟩

theorem mem_mergeCandidates (nodes : List Node) (groups : List Group) (c : Node)
    (h : c ∈ mergeCandidates nodes groups) :
    (∃ g ∈ groups, acceptedB nodes g = true ∧ c = mkMerged nodes g) ∨
    (c ∈ nodes ∧ claimedB nodes groups c.id = false) := by
  unfold mergeCandidates at h
  rcases List.mem_append.mp h with h | h
  · obtain ⟨g, hg, rfl⟩ := List.mem_map.mp h
    exact Or.inl ⟨g, (List.mem_filter.mp hg).1, (List.mem_filter.mp hg).2, rfl⟩
  · have hf := List.mem_filter.mp h
    refine Or.inr ⟨hf.1, ?_⟩
    have h2 := hf.2
    simp at h2
    exact h2

theorem eq_of_mem_nodup_id (nodes : List Node) (hnd : (nodeIds nodes).Nodup)
    (m n : Node) (hm : m ∈ nodes) (hn : n ∈ nodes) (h : m.id = n.id) : m = n := by
  induction nodes with
  | nil => simp at hm
  | cons x rest ih =>
    simp only [nodeIds_cons, List.nodup_cons] at hnd
    rcases List.mem_cons.mp hm with rfl | hm'
    · rcases List.mem_cons.mp hn with rfl | hn'
      · rfl
      · exact absurd (h ▸ (mem_nodeIds rest n.id).mpr ⟨n, hn', rfl⟩) hnd.1
    · rcases List.mem_cons.mp hn with rfl | hn'
      · exact absurd (h ▸ (mem_nodeIds rest m.id).mpr ⟨m, hm', rfl⟩)
          (by rw [← h] at hnd ⊢; exact hnd.1)
      · exact ih hnd.2 hm' hn'

theorem mergeCandidates_unclaimed_unique (nodes : List Node) (groups : List Group)
    (hnd : (nodeIds nodes).Nodup) (n : Node) (hn : n ∈ nodes)
    (hcl : claimedB nodes groups n.id = false) :
    ∀ c ∈ mergeCandidates nodes groups, c.id = n.id → c = n := by
  intro c hc hcid
  rcases mem_mergeCandidates nodes groups c hc with ⟨g, hg, hacc, rfl⟩ | ⟨hcn, _⟩
  · exfalso
    have hrep : (mkMerged nodes g).id ∈ validMembers nodes g := by
      rw [mkMerged_id]
      exact listMin_mem _ (validMembers_ne_nil nodes g hacc)
    have := claimed_of_accepted_mem nodes groups g hg hacc _ hrep
    rw [hcid, hcl] at this
    exact Bool.false_ne_true this
  · exact eq_of_mem_nodup_id nodes hnd c n hcn hn hcid

/-! ## Claim theorems for the MergeEngine -/

/-- **C6.** Merge is idempotent on the id mapping: running `mergeNodes` again
on its own output with an empty group list yields exactly the identity map on
the ids of the merged node set (defined there and nowhere else). -/
theorem C6_merge_idempotent_idMap (nodes : List Node) (groups : List Group) (k : Int) :
    aget (mergeNodes (mergeNodes nodes groups).1 []).2 k =
      if k ∈ nodeIds (mergeNodes nodes groups).1 then some k else none := by
  rw [mergeNodes_idMap]
  unfold idMapSpec claimRep
  simp

/-- **C5.** A group with fewer than two valid members leaves the merge state
untouched (it claims no node); every node unclaimed by all accepted groups
passes through unchanged with an identity `idMap` entry; every output node is
one of the candidates (merged nodes of accepted groups, unclaimed passthrough
nodes) and has maximal relevance among the candidates sharing its id; output
ids are unique. -/
theorem C5_merge_passthrough_and_resolution (nodes : List Node) (groups : List Group)
    (hnd : (nodeIds nodes).Nodup) :
    (∀ g ∈ groups, acceptedB nodes g = false →
       ∀ acc, groupStep nodes acc g = acc) ∧
    (∀ n ∈ nodes, claimedB nodes groups n.id = false →
       n ∈ (mergeNodes nodes groups).1 ∧
       aget (mergeNodes nodes groups).2 n.id = some n.id) ∧
    (∀ m ∈ (mergeNodes nodes groups).1,
       m ∈ mergeCandidates nodes groups ∧
       ∀ c ∈ mergeCandidates nodes groups, c.id = m.id →
         c.relevance ≤ m.relevance) ∧
    ((mergeNodes nodes groups).1.map (·.id)).Nodup := by
  refine ⟨?_, ?_, ?_, mergeNodes_ids_nodup nodes groups⟩
  · intro g _ hrej acc
    exact groupStep_rejected nodes acc g hrej
  · intro n hn hcl
    have hmemc : n ∈ mergeCandidates nodes groups := by
      unfold mergeCandidates
      apply List.mem_append_right
      rw [List.mem_filter]
      exact ⟨hn, by simp [hcl]⟩
    have hbest : bestAt (mergeCandidates nodes groups) n.id none = some n :=
      bestAt_unique n.id n (mergeCandidates nodes groups) hmemc rfl
        (mergeCandidates_unclaimed_unique nodes groups hnd n hn hcl)
    constructor
    · rw [mergeNodes_fst]
      apply mem_avalues_of_aget _ n.id
      rw [aget_merge_byId]
      exact hbest
    · rw [mergeNodes_idMap]
      unfold idMapSpec
      rw [(claimRep_none_iff nodes groups n.id).mpr hcl]
      simp [(mem_nodeIds nodes n.id).mpr ⟨n, hn, rfl⟩]
  · intro m hm
    obtain ⟨k, hk⟩ := (mem_mergeNodes_iff nodes groups m).mp hm
    have h1 := bestAt_eq_some k m (mergeCandidates nodes groups) none hk
    rcases h1 with h1 | h1
    · simp at h1
    · refine ⟨h1.1, ?_⟩
      intro c hc hcid
      exact bestAt_ge k m (mergeCandidates nodes groups) none hk c hc (hcid.trans h1.2)

/-- **C7.** After a consolidation step the graph is well-formed: the id map is
defined on exactly the input node ids, each of its values is the id of a node
in the merged output, and every rewired edge has both endpoints among the
merged output node ids. -/
theorem C7_consolidation_wellformed (nodes : List Node) (groups : List Group)
    (edges : List Edge) :
    (∀ k, (aget (mergeNodes nodes groups).2 k).isSome ↔ k ∈ nodeIds nodes) ∧
    (∀ k r, aget (mergeNodes nodes groups).2 k = some r →
       r ∈ nodeIds (mergeNodes nodes groups).1) ∧
    (∀ f ∈ rewireEdges edges (mergeNodes nodes groups).2,
       f.nodeID1 ∈ nodeIds (mergeNodes nodes groups).1 ∧
       f.nodeID2 ∈ nodeIds (mergeNodes nodes groups).1) := by
  have hval : ∀ k r, aget (mergeNodes nodes groups).2 k = some r →
      r ∈ nodeIds (mergeNodes nodes groups).1 := by
    intro k r h
    rw [mergeNodes_idMap] at h
    unfold idMapSpec at h
    cases hr : claimRep nodes groups k with
    | some r' =>
      rw [hr] at h
      simp at h
      obtain ⟨g, hg, hacc, _, hrep⟩ := claimRep_eq_some nodes groups k r' hr
      show r ∈ (mergeNodes nodes groups).1.map (·.id)
      rw [mergeNodes_id_mem_iff]
      refine ⟨mkMerged nodes g, ?_, ?_⟩
      · unfold mergeCandidates
        exact List.mem_append_left _
          (List.mem_map_of_mem _ (List.mem_filter.mpr ⟨hg, by simp [hacc]⟩))
      · rw [mkMerged_id, ← hrep, h]
    | none =>
      rw [hr] at h
      by_cases hk : k ∈ nodeIds nodes
      · rw [if_pos hk] at h
        simp at h
        subst h
        obtain ⟨n, hn, rfl⟩ := (mem_nodeIds nodes k).mp hk
        have hcl : claimedB nodes groups n.id = false :=
          (claimRep_none_iff nodes groups n.id).mp hr
        show n.id ∈ (mergeNodes nodes groups).1.map (·.id)
        rw [mergeNodes_id_mem_iff]
        refine ⟨n, ?_, rfl⟩
        unfold mergeCandidates
        apply List.mem_append_right
        rw [List.mem_filter]
        exact ⟨hn, by simp [hcl]⟩
      · rw [if_neg hk] at h
        simp at h
  refine ⟨?_, hval, ?_⟩
  · intro k
    rw [mergeNodes_idMap]
    unfold idMapSpec
    cases hr : claimRep nodes groups k with
    | some r =>
      simp only [Option.isSome_some, true_iff]
      obtain ⟨g, _, _, hk, _⟩ := claimRep_eq_some nodes groups k r hr
      exact ((mem_validMembers nodes g k).mp hk).2
    | none =>
      by_cases hk : k ∈ nodeIds nodes <;> simp [hk]
  · intro f hf
    obtain ⟨e, _, het⟩ := rewireEdges_mem edges (mergeNodes nodes groups).2 f hf
    obtain ⟨a, b, ha, hb, _, rfl⟩ :=
      translateEdge_some (mergeNodes nodes groups).2 e f het
    have hA := hval _ _ ha
    have hB := hval _ _ hb
    constructor
    · show min a b ∈ nodeIds (mergeNodes nodes groups).1
      rcases min_choice a b with h | h <;> rw [h]
      · exact hA
      · exact hB
    · show max a b ∈ nodeIds (mergeNodes nodes groups).1
      rcases max_choice a b with h | h <;> rw [h]
      · exact hA
      · exact hB

/-! ## Claim C1: the per-group description of the merged node -/

/-- Valid-member-disjointness of two groups is a symmetric relation. -/
theorem disjointVM_symm (nodes : List Node) :
    Symmetric (fun g1 g2 : Group =>
      ∀ k, k ∈ validMembers nodes g1 → ¬ k ∈ validMembers nodes g2) := by
  intro g1 g2 h k hk2 hk1
  exact h k hk1 hk2

theorem claimRep_of_disjoint (nodes : List Node) (groups : List Group)
    (hdisj : groups.Pairwise (fun g1 g2 =>
      ∀ k, k ∈ validMembers nodes g1 → ¬ k ∈ validMembers nodes g2))
    (g : Group) (hg : g ∈ groups) (hacc : acceptedB nodes g = true)
    (k : Int) (hk : k ∈ validMembers nodes g) :
    claimRep nodes groups k = some (listMin (validMembers nodes g)) := by
  cases hr : claimRep nodes groups k with
  | none =>
    have hcl := claimed_of_accepted_mem nodes groups g hg hacc k hk
    rw [(claimRep_none_iff nodes groups k).mp hr] at hcl
    exact absurd hcl Bool.false_ne_true
  | some r =>
    obtain ⟨g', hg', _, hk', hrep⟩ := claimRep_eq_some nodes groups k r hr
    by_cases hgg : g = g'
    · rw [hrep, hgg]
    · exfalso
      exact List.Pairwise.forall (disjointVM_symm nodes) hdisj hg hg' hgg k hk hk'

theorem mergeCandidates_rep_unique (nodes : List Node) (groups : List Group)
    (hdisj : groups.Pairwise (fun g1 g2 =>
      ∀ k, k ∈ validMembers nodes g1 → ¬ k ∈ validMembers nodes g2))
    (g : Group) (hg : g ∈ groups) (hacc : acceptedB nodes g = true) :
    ∀ c ∈ mergeCandidates nodes groups, c.id = (mkMerged nodes g).id →
      c = mkMerged nodes g := by
  intro c hc hcid
  have hrepg : (mkMerged nodes g).id ∈ validMembers nodes g := by
    rw [mkMerged_id]
    exact listMin_mem _ (validMembers_ne_nil nodes g hacc)
  rcases mem_mergeCandidates nodes groups c hc with ⟨g', hg', hacc', rfl⟩ | ⟨hcn, hcl⟩
  · by_cases hgg : g' = g
    · rw [hgg]
    · exfalso
      have hrepg' : (mkMerged nodes g').id ∈ validMembers nodes g' := by
        rw [mkMerged_id]
        exact listMin_mem _ (validMembers_ne_nil nodes g' hacc')
      rw [hcid] at hrepg'
      exact List.Pairwise.forall (disjointVM_symm nodes) hdisj hg hg'
        (fun he => hgg he.symm) _ hrepg hrepg'
  · exfalso
    have := claimed_of_accepted_mem nodes groups g hg hacc _ hrepg
    rw [← hcid, hcl] at this
    exact Bool.false_ne_true this

theorem mkMerged_mem_candidates (nodes : List Node) (groups : List Group)
    (g : Group) (hg : g ∈ groups) (hacc : acceptedB nodes g = true) :
    mkMerged nodes g ∈ mergeCandidates nodes groups := by
  unfold mergeCandidates
  exact List.mem_append_left _
    (List.mem_map_of_mem _ (List.mem_filter.mpr ⟨hg, by simp [hacc]⟩))

theorem mkMerged_relevance_spec (nodes : List Node) (g : Group)
    (hnd : (nodeIds nodes).Nodup) (hacc : acceptedB nodes g = true) :
    (∃ n ∈ nodes, n.id ∈ validMembers nodes g ∧
        (mkMerged nodes g).relevance = n.relevance) ∧
    (∀ n ∈ nodes, n.id ∈ validMembers nodes g →
        n.relevance ≤ (mkMerged nodes g).relevance) := by
  have hne : validMembers nodes g ≠ [] := validMembers_ne_nil nodes g hacc
  constructor
  · have hmem := listMax_mem ((validMembers nodes g).map (findRelevance nodes))
      (by simpa using hne)
    obtain ⟨k, hk, hkr⟩ := List.mem_map.mp hmem
    have hkn : k ∈ nodeIds nodes := ((mem_validMembers nodes g k).mp hk).2
    obtain ⟨n, hn, rfl⟩ := (mem_nodeIds nodes k).mp hkn
    refine ⟨n, hn, hk, ?_⟩
    rw [mkMerged_relevance, ← hkr, findRelevance_eq nodes n hnd hn]
  · intro n hn hnk
    have hmem : findRelevance nodes n.id ∈
        (validMembers nodes g).map (findRelevance nodes) :=
      List.mem_map_of_mem _ hnk
    have hle := listMax_ge _ _ hmem
    rw [findRelevance_eq nodes n hnd hn] at hle
    rw [mkMerged_relevance]
    exact hle

/-- **C1 (counterexample).** The claim taken literally fails on the code in
three ways, each witnessed here: (i) with overlapping accepted groups, the
later group's `idMap.set` overwrites the earlier one, so valid member `2` of
the accepted first group (representative `1`) ends up mapped to `2`; (ii) an
*empty-string* label falls back to the generated `"Merged 1+2"` label (JS
`||` treats `""` like an absent label), so the title is not the trimmed group
label; (iii) an empty-string summary likewise falls back to the title. -/
theorem C1_counterexample :
    (acceptedB
        [⟨1, "A", "", [], 1⟩, ⟨2, "B", "", [], 2⟩, ⟨3, "C", "", [], 3⟩]
        ⟨some "G1", [1, 2], some "S1", none⟩ = true ∧
     listMin (validMembers
        [⟨1, "A", "", [], 1⟩, ⟨2, "B", "", [], 2⟩, ⟨3, "C", "", [], 3⟩]
        ⟨some "G1", [1, 2], some "S1", none⟩) = 1 ∧
     (2 : Int) ∈ validMembers
        [⟨1, "A", "", [], 1⟩, ⟨2, "B", "", [], 2⟩, ⟨3, "C", "", [], 3⟩]
        ⟨some "G1", [1, 2], some "S1", none⟩ ∧
     aget (mergeNodes
        [⟨1, "A", "", [], 1⟩, ⟨2, "B", "", [], 2⟩, ⟨3, "C", "", [], 3⟩]
        [⟨some "G1", [1, 2], some "S1", none⟩,
         ⟨some "G2", [2, 3], some "S2", none⟩]).2 2 = some 2) ∧
    ((mergeNodes [⟨1, "A", "", [], 1⟩, ⟨2, "B", "", [], 2⟩]
        [⟨some "", [1, 2], some "S", none⟩]).1.map (·.title) = ["Merged 1+2"]) ∧
    ((mergeNodes [⟨1, "A", "", [], 1⟩, ⟨2, "B", "", [], 2⟩]
        [⟨some "T", [1, 2], some "", none⟩]).1.map (·.summary) = ["T"]) := by
  refine ⟨⟨?_, ?_, ?_, ?_⟩, ?_, ?_⟩ <;> decide

/-- **C1 (amended).** Under the data-model invariant that node ids are unique
and provided the accepted groups have pairwise disjoint valid member sets
(overlap is resolved by overwrite, see the counterexample), every group with
at least two valid member ids yields exactly one output node `nd`: its id is
the minimum valid member id; its title is the trimmed label when the label is
present and nonempty and else the generated `"Merged <id1+id2+...>"`; its
summary is the trimmed summary when present and nonempty and else the
(already trimmed) title; its papers are empty; its relevance is attained by a
valid member and bounds all valid members; and the id map sends every valid
member to `nd.id`. -/
theorem C1_amended (nodes : List Node) (groups : List Group)
    (hnd : (nodeIds nodes).Nodup)
    (hdisj : groups.Pairwise (fun g1 g2 =>
      ∀ k, k ∈ validMembers nodes g1 → ¬ k ∈ validMembers nodes g2))
    (g : Group) (hg : g ∈ groups) (hacc : acceptedB nodes g = true) :
    ∃ nd : Node,
      (mergeNodes nodes groups).1.filter
          (fun n => n.id = listMin (validMembers nodes g)) = [nd] ∧
      nd.id ∈ validMembers nodes g ∧
      (∀ k ∈ validMembers nodes g, nd.id ≤ k) ∧
      ((g.label = none ∨ g.label = some "") →
        nd.title = jsTrim ("Merged " ++ joinPlus (validMembers nodes g))) ∧
      (∀ s, g.label = some s → ¬ s = "" → nd.title = jsTrim s) ∧
      ((g.summary = none ∨ g.summary = some "") → nd.summary = jsTrim nd.title) ∧
      (∀ s, g.summary = some s → ¬ s = "" → nd.summary = jsTrim s) ∧
      nd.papers = [] ∧
      (∃ n ∈ nodes, n.id ∈ validMembers nodes g ∧ nd.relevance = n.relevance) ∧
      (∀ n ∈ nodes, n.id ∈ validMembers nodes g → n.relevance ≤ nd.relevance) ∧
      (∀ k ∈ validMembers nodes g, aget (mergeNodes nodes groups).2 k = some nd.id) := by
  refine ⟨mkMerged nodes g, ?_, ?_, ?_, ?_, ?_, ?_, ?_, mkMerged_papers nodes g,
    (mkMerged_relevance_spec nodes g hnd hacc).1,
    (mkMerged_relevance_spec nodes g hnd hacc).2, ?_⟩
  · have hbest : bestAt (mergeCandidates nodes groups) (mkMerged nodes g).id none =
        some (mkMerged nodes g) :=
      bestAt_unique _ _ _ (mkMerged_mem_candidates nodes groups g hg hacc) rfl
        (mergeCandidates_rep_unique nodes groups hdisj g hg hacc)
    have haget : aget ((mergeCandidates nodes groups).foldl relStep [])
        (mkMerged nodes g).id = some (mkMerged nodes g) := by
      rw [aget_merge_byId]
      exact hbest
    have := avalues_filter_aget _ (byIdInv_merge nodes groups) _ _ haget
    rw [mergeNodes_fst]
    rw [← mkMerged_id]
    exact this
  · rw [mkMerged_id]
    exact listMin_mem _ (validMembers_ne_nil nodes g hacc)
  · intro k hk
    rw [mkMerged_id]
    exact listMin_le _ k hk
  · rintro (hl | hl) <;> rw [mkMerged_title, hl] <;> simp [jsOr]
  · intro s hs hne
    rw [mkMerged_title, hs]
    simp [jsOr, hne]
  · rintro (hs | hs) <;> rw [mkMerged_summary, mkMerged_title, hs] <;> simp [jsOr]
  · intro s hs hne
    rw [mkMerged_summary, hs]
    simp [jsOr, hne]
  · intro k hk
    rw [mergeNodes_idMap]
    unfold idMapSpec
    rw [claimRep_of_disjoint nodes groups hdisj g hg hacc k hk, mkMerged_id]

/-- **C2.** `rewireEdges` equals the spec's description (translate endpoints
through the id map, drop edges with an absent endpoint, drop self-loops,
canonicalise as `(min, max)`, dedup on the canonical key keeping the first
occurrence with its reasoning); consequently the output has no self-loop and
no two edges with the same canonical key. -/
theorem C2_rewire_correct (edges : List Edge) (idMap : List (Int × Int)) :
    rewireEdges edges idMap = specRewire edges idMap ∧
    (∀ f ∈ rewireEdges edges idMap, f.nodeID1 ≠ f.nodeID2) ∧
    (rewireEdges edges idMap).Pairwise (fun a b => edgeKey a ≠ edgeKey b) := by
  refine ⟨rewireEdges_eq_spec edges idMap, ?_, ?_⟩
  · intro f hf
    obtain ⟨e, _, het⟩ := rewireEdges_mem edges idMap f hf
    exact translateEdge_no_loop idMap e f het
  · unfold rewireEdges
    rw [rewire_fold_go]
    simpa using rewireGo_pairwise idMap edges []

/-! ## ClientReconciler (`load` / `handleOptimize` in
`graph-viz/components/graph-visualization.tsx`) -/

/-- Client-side node: `id` is always present; the remaining fields are
optional so that JS object spread `{...old, ...incoming}` (per-field
overwrite, absent fields preserved) can be modelled faithfully. -/
structure CNode where
  id : Int
  title : Option String
  summary : Option String
  papers : Option (List String)
  relevance : Option Int
  deriving Repr, DecidableEq

/-- `{...old, ...incoming}`: a field present in `incoming` wins; a field the
incoming node omits keeps the old value. -/
def spread (old incoming : CNode) : CNode :=
  { id := incoming.id
    title := match incoming.title with
             | some t => some t
             | none => old.title
    summary := match incoming.summary with
               | some s => some s
               | none => old.summary
    papers := match incoming.papers with
              | some p => some p
              | none => old.papers
    relevance := match incoming.relevance with
                 | some r => some r
                 | none => old.relevance }

/-- One incoming node folded into the `byId` map
(`byId.set(n.id, old ? {...old, ...n} : n)`). -/
def reconStep (m : List (Int × CNode)) (n : CNode) : List (Int × CNode) :=
  match aget m n.id with
  | some old => aset m n.id (spread old n)
  | none => aset m n.id n

/-- Node reconciliation from `load` / `handleOptimize`:
`byId = new Map(prev.map(n => [n.id, n]))`, overlay incoming, return values. -/
def reconcileNodes (view incoming : List CNode) : List CNode :=
  avalues (incoming.foldl reconStep (view.foldl (fun m n => aset m n.id n) []))

/-- Canonical undirected key of a client edge (same `${min}-${max}` keying as
the server). -/
def cEdgeKey (e : Edge) : Int × Int :=
  (min e.nodeID1 e.nodeID2, max e.nodeID1 e.nodeID2)

/-- Edge reconciliation from `load` / `handleOptimize`: start from the
previous edges, append only incoming edges whose canonical key is new. -/
def reconcileEdges (view incoming : List Edge) : List Edge :=
  (incoming.foldl
    (fun acc e =>
      if cEdgeKey e ∈ acc.2 then acc else (acc.1 ++ [e], acc.2 ++ [cEdgeKey e]))
    (view, view.map cEdgeKey)).1

/-- A client view / snapshot `{nodes, edges}`. -/
structure ClientView where
  nodes : List CNode
  edges : List Edge
  deriving Repr, DecidableEq

/-- One reconciliation round: fold an incoming snapshot into the view. -/
def reconcile (view incoming : ClientView) : ClientView :=
  ⟨reconcileNodes view.nodes incoming.nodes,
   reconcileEdges view.edges incoming.edges⟩

/-! ### Reconciliation lemmas -/

theorem aget_mem {α : Type} (m : List (Int × α)) (k : Int) (v : α)
    (h : aget m k = some v) : (k, v) ∈ m := by
  induction m with
  | nil => simp at h
  | cons p rest ih =>
    by_cases hp : p.1 = k
    · simp [hp] at h
      rw [← hp, ← h]
      simp
    · simp [hp] at h
      exact List.mem_cons_of_mem _ (ih h)

/-- Entries of the client `byId` maps always carry their key as id. -/
def cInv (m : List (Int × CNode)) : Prop := ∀ p ∈ m, p.2.id = p.1

theorem cInv_aset (m : List (Int × CNode)) (n : CNode) (h : cInv m) :
    cInv (aset m n.id n) := by
  intro p hp
  rcases mem_aset _ _ _ _ hp with rfl | hp'
  · rfl
  · exact h p hp'

theorem cInv_viewFold (view : List CNode) (m : List (Int × CNode)) (h : cInv m) :
    cInv (view.foldl (fun m n => aset m n.id n) m) := by
  induction view generalizing m with
  | nil => exact h
  | cons v rest ih =>
    rw [List.foldl_cons]
    exact ih _ (cInv_aset m v h)

theorem spread_id (old incoming : CNode) : (spread old incoming).id = incoming.id := rfl

theorem cInv_reconStep (m : List (Int × CNode)) (n : CNode) (h : cInv m) :
    cInv (reconStep m n) := by
  unfold reconStep
  cases hm : aget m n.id with
  | some old =>
    intro p hp
    rcases mem_aset _ _ _ _ hp with rfl | hp'
    · rfl
    · exact h p hp'
  | none => exact cInv_aset m n h

theorem cInv_reconFold (incoming : List CNode) (m : List (Int × CNode)) (h : cInv m) :
    cInv (incoming.foldl reconStep m) := by
  induction incoming generalizing m with
  | nil => exact h
  | cons n rest ih =>
    rw [List.foldl_cons]
    exact ih _ (cInv_reconStep m n h)

theorem cKeysNodup_aset (m : List (Int × CNode)) (n : CNode)
    (h : (akeys m).Nodup) : (akeys (aset m n.id n)).Nodup :=
  nodup_akeys_aset m n.id n h

theorem cKeysNodup_viewFold (view : List CNode) (m : List (Int × CNode))
    (h : (akeys m).Nodup) :
    (akeys (view.foldl (fun m n => aset m n.id n) m)).Nodup := by
  induction view generalizing m with
  | nil => exact h
  | cons v rest ih =>
    rw [List.foldl_cons]
    exact ih _ (nodup_akeys_aset m v.id v h)

theorem cKeysNodup_reconFold (incoming : List CNode) (m : List (Int × CNode))
    (h : (akeys m).Nodup) : (akeys (incoming.foldl reconStep m)).Nodup := by
  induction incoming generalizing m with
  | nil => exact h
  | cons n rest ih =>
    rw [List.foldl_cons]
    apply ih
    unfold reconStep
    cases aget m n.id
    · exact nodup_akeys_aset m n.id n h
    · exact nodup_akeys_aset m n.id _ h

theorem mem_akeys_viewFold (view : List CNode) (m : List (Int × CNode)) (k : Int) :
    k ∈ akeys (view.foldl (fun m n => aset m n.id n) m) ↔
      k ∈ view.map (·.id) ∨ k ∈ akeys m := by
  induction view generalizing m with
  | nil => simp
  | cons v rest ih =>
    rw [List.foldl_cons, ih, mem_akeys_aset]
    simp only [List.map_cons, List.mem_cons]
    tauto

theorem mem_akeys_reconStep (m : List (Int × CNode)) (n : CNode) (k : Int) :
    k ∈ akeys (reconStep m n) ↔ k = n.id ∨ k ∈ akeys m := by
  unfold reconStep
  cases aget m n.id
  · exact mem_akeys_aset m n.id k n
  · exact mem_akeys_aset m n.id k _

theorem mem_akeys_reconFold (incoming : List CNode) (m : List (Int × CNode)) (k : Int) :
    k ∈ akeys (incoming.foldl reconStep m) ↔
      k ∈ incoming.map (·.id) ∨ k ∈ akeys m := by
  induction incoming generalizing m with
  | nil => simp
  | cons n rest ih =>
    rw [List.foldl_cons, ih, mem_akeys_reconStep]
    simp only [List.map_cons, List.mem_cons]
    tauto

theorem aget_reconStep_other (m : List (Int × CNode)) (n : CNode) (k : Int)
    (h : ¬ n.id = k) : aget (reconStep m n) k = aget m k := by
  unfold reconStep
  cases aget m n.id
  · rw [aget_aset, if_neg h]
  · rw [aget_aset, if_neg h]

theorem aget_reconFold_untouched (incoming : List CNode) (m : List (Int × CNode))
    (k : Int) (h : ¬ k ∈ incoming.map (·.id)) :
    aget (incoming.foldl reconStep m) k = aget m k := by
  induction incoming generalizing m with
  | nil => rfl
  | cons n rest ih =>
    simp only [List.map_cons, List.mem_cons] at h
    rw [List.foldl_cons, ih _ (fun hc => h (Or.inr hc)),
      aget_reconStep_other m n k (fun hc => h (Or.inl hc.symm))]

theorem aget_viewFold_untouched (view : List CNode) (m : List (Int × CNode))
    (k : Int) (h : ¬ k ∈ view.map (·.id)) :
    aget (view.foldl (fun m n => aset m n.id n) m) k = aget m k := by
  induction view generalizing m with
  | nil => rfl
  | cons v rest ih =>
    simp only [List.map_cons, List.mem_cons] at h
    rw [List.foldl_cons, ih _ (fun hc => h (Or.inr hc)), aget_aset,
      if_neg (fun hc => h (Or.inl hc.symm))]

theorem aget_viewFold_nodup (view : List CNode) (hnd : (view.map (·.id)).Nodup)
    (m : List (Int × CNode)) (k : Int) :
    aget (view.foldl (fun m n => aset m n.id n) m) k =
      (match view.find? (fun o => o.id = k) with
       | some v => some v
       | none => aget m k) := by
  induction view generalizing m with
  | nil => simp
  | cons v rest ih =>
    simp only [List.map_cons, List.nodup_cons] at hnd
    rw [List.foldl_cons]
    by_cases hv : v.id = k
    · have hk : ¬ k ∈ rest.map (·.id) := by rw [← hv]; exact hnd.1
      rw [aget_viewFold_untouched rest _ k hk, aget_aset, if_pos hv]
      rw [List.find?_cons]
      rw [show (decide (v.id = k)) = true by simp [hv]]
    · rw [ih hnd.2]
      rw [List.find?_cons]
      rw [show (decide (v.id = k)) = false by simp [hv]]
      have : aget (aset m v.id v) k = aget m k := by
        rw [aget_aset, if_neg hv]
      cases rest.find? (fun o => o.id = k) <;> simp [this]

theorem aget_reconFold_nodup (incoming : List CNode)
    (hnd : (incoming.map (·.id)).Nodup) (n : CNode) (hn : n ∈ incoming)
    (m : List (Int × CNode)) :
    aget (incoming.foldl reconStep m) n.id =
      some (match aget m n.id with
            | some old => spread old n
            | none => n) := by
  induction incoming generalizing m with
  | nil => simp at hn
  | cons x rest ih =>
    simp only [List.map_cons, List.nodup_cons] at hnd
    rw [List.foldl_cons]
    rcases List.mem_cons.mp hn with rfl | hn'
    · rw [aget_reconFold_untouched rest _ n.id hnd.1]
      unfold reconStep
      cases hm : aget m n.id <;> simp [aget_aset]
    · have hx : ¬ x.id = n.id := by
        intro he
        exact hnd.1 (he ▸ List.mem_map_of_mem (·.id) hn')
      rw [ih hnd.2 hn', aget_reconStep_other m x n.id hx]

/-- The node map built during one reconciliation round. -/
def nodeMap (view incoming : List CNode) : List (Int × CNode) :=
  incoming.foldl reconStep (view.foldl (fun m n => aset m n.id n) [])

theorem reconcileNodes_eq (view incoming : List CNode) :
    reconcileNodes view incoming = avalues (nodeMap view incoming) := rfl

theorem cInv_nodeMap (view incoming : List CNode) : cInv (nodeMap view incoming) :=
  cInv_reconFold _ _ (cInv_viewFold _ [] (by intro p hp; simp at hp))

theorem cKeysNodup_nodeMap (view incoming : List CNode) :
    (akeys (nodeMap view incoming)).Nodup :=
  cKeysNodup_reconFold _ _ (cKeysNodup_viewFold _ [] List.nodup_nil)

theorem avalues_find_eq (m : List (Int × CNode)) (hinv : cInv m)
    (hnd : (akeys m).Nodup) (k : Int) :
    (avalues m).find? (fun o => o.id = k) = aget m k := by
  induction m with
  | nil => simp
  | cons p rest ih =>
    have hnd' : (akeys rest).Nodup := by
      have := hnd
      simp only [akeys_cons, List.nodup_cons] at this
      exact this.2
    have hinv' : cInv rest := fun q hq => hinv q (List.mem_cons_of_mem _ hq)
    have hpid : p.2.id = p.1 := hinv p (List.mem_cons_self p rest)
    rw [avalues_cons, List.find?_cons, aget_cons]
    by_cases hp : p.1 = k
    · rw [show (decide (p.2.id = k)) = true by simp [hpid, hp], if_pos hp]
    · rw [show (decide (p.2.id = k)) = false by simp [hpid, hp], if_neg hp]
      exact ih hinv' hnd'

/-- Rebuilding a map from its values (as the next reconciliation round does
with `new Map(prev.map(n => [n.id, n]))`) preserves all lookups. -/
theorem aget_rebuild (m : List (Int × CNode)) (hinv : cInv m)
    (hnd : (akeys m).Nodup) (k : Int) :
    aget ((avalues m).foldl (fun acc n => aset acc n.id n) []) k = aget m k := by
  have hvnd : ((avalues m).map (·.id)).Nodup := by
    have heq : (avalues m).map (·.id) = akeys m := by
      unfold avalues akeys
      rw [List.map_map]
      exact List.map_congr_left (fun p hp => hinv p hp)
    rw [heq]
    exact hnd
  rw [aget_viewFold_nodup _ hvnd [] k, avalues_find_eq m hinv hnd k]
  cases aget m k <;> simp

/-- The value at one key after a reconciliation fold depends on the base map
only through that key. -/
theorem aget_reconFold_key (l : List CNode) (m1 m2 : List (Int × CNode)) (k : Int)
    (h : aget m1 k = aget m2 k) :
    aget (l.foldl reconStep m1) k = aget (l.foldl reconStep m2) k := by
  induction l generalizing m1 m2 with
  | nil => exact h
  | cons n rest ih =>
    rw [List.foldl_cons, List.foldl_cons]
    apply ih
    by_cases hk : n.id = k
    · subst hk
      unfold reconStep
      rw [h]
      cases aget m2 n.id <;> simp [aget_aset]
    · rw [aget_reconStep_other _ _ _ hk, aget_reconStep_other _ _ _ hk]
      exact h

/-! ### Edge reconciliation as forward recursion -/

/-- Forward-recursion form of the incoming-edge loop of `reconcileEdges`. -/
def reconGo : List (Int × Int) → List Edge → List Edge
  | _, [] => []
  | seen, e :: rest =>
    if cEdgeKey e ∈ seen then reconGo seen rest
    else e :: reconGo (seen ++ [cEdgeKey e]) rest

theorem recon_fold_go :
    ∀ (incoming : List Edge) (out : List Edge) (seen : List (Int × Int)),
      (incoming.foldl
        (fun acc e =>
          if cEdgeKey e ∈ acc.2 then acc else (acc.1 ++ [e], acc.2 ++ [cEdgeKey e]))
        (out, seen)).1 = out ++ reconGo seen incoming := by
  intro incoming
  induction incoming with
  | nil => intro out seen; simp [reconGo]
  | cons e rest ih =>
    intro out seen
    rw [List.foldl_cons]
    by_cases hseen : cEdgeKey e ∈ seen
    · rw [show (if cEdgeKey e ∈ seen then (out, seen)
          else (out ++ [e], seen ++ [cEdgeKey e])) = (out, seen) from if_pos hseen]
      rw [ih]
      simp [reconGo, hseen]
    · rw [show (if cEdgeKey e ∈ seen then (out, seen)
          else (out ++ [e], seen ++ [cEdgeKey e])) =
          (out ++ [e], seen ++ [cEdgeKey e]) from if_neg hseen]
      rw [ih]
      simp [reconGo, hseen]

theorem reconcileEdges_eq (view incoming : List Edge) :
    reconcileEdges view incoming =
      view ++ reconGo (view.map cEdgeKey) incoming := by
  unfold reconcileEdges
  rw [recon_fold_go]

theorem reconGo_subset :
    ∀ (incoming : List Edge) (seen : List (Int × Int)) (f : Edge),
      f ∈ reconGo seen incoming → f ∈ incoming := by
  intro incoming
  induction incoming with
  | nil => intro seen f h; simp [reconGo] at h
  | cons e rest ih =>
    intro seen f h
    by_cases hseen : cEdgeKey e ∈ seen
    · rw [show reconGo seen (e :: rest) = reconGo seen rest by simp [reconGo, hseen]] at h
      exact List.mem_cons_of_mem _ (ih seen f h)
    · rw [show reconGo seen (e :: rest) = e :: reconGo (seen ++ [cEdgeKey e]) rest by
        simp [reconGo, hseen]] at h
      rcases List.mem_cons.mp h with rfl | h'
      · exact List.mem_cons_self f rest
      · exact List.mem_cons_of_mem _ (ih _ f h')

theorem reconGo_congr :
    ∀ (incoming : List Edge) (s1 s2 : List (Int × Int)),
      (∀ e ∈ incoming, (cEdgeKey e ∈ s1 ↔ cEdgeKey e ∈ s2)) →
      reconGo s1 incoming = reconGo s2 incoming := by
  intro incoming
  induction incoming with
  | nil => intro s1 s2 _; rfl
  | cons e rest ih =>
    intro s1 s2 h
    have he := h e (List.mem_cons_self e rest)
    by_cases h1 : cEdgeKey e ∈ s1
    · have h2 : cEdgeKey e ∈ s2 := he.mp h1
      rw [show reconGo s1 (e :: rest) = reconGo s1 rest by simp [reconGo, h1]]
      rw [show reconGo s2 (e :: rest) = reconGo s2 rest by simp [reconGo, h2]]
      exact ih s1 s2 (fun f hf => h f (List.mem_cons_of_mem _ hf))
    · have h2 : ¬ cEdgeKey e ∈ s2 := fun hc => h1 (he.mpr hc)
      rw [show reconGo s1 (e :: rest) = e :: reconGo (s1 ++ [cEdgeKey e]) rest by
        simp [reconGo, h1]]
      rw [show reconGo s2 (e :: rest) = e :: reconGo (s2 ++ [cEdgeKey e]) rest by
        simp [reconGo, h2]]
      congr 1
      apply ih
      intro f hf
      have := h f (List.mem_cons_of_mem _ hf)
      simp [List.mem_append, this]

/-- All node ids a snapshot touches: its node ids and its edge endpoints. -/
def touchedIds (v : ClientView) : List Int :=
  v.nodes.map (·.id) ++ v.edges.flatMap (fun e => [e.nodeID1, e.nodeID2])

theorem cEdgeKey_fst_touched (v : ClientView) (e : Edge) (he : e ∈ v.edges) :
    (cEdgeKey e).1 ∈ touchedIds v := by
  unfold touchedIds
  apply List.mem_append_right
  rw [List.mem_flatMap]
  refine ⟨e, he, ?_⟩
  unfold cEdgeKey
  rcases min_choice e.nodeID1 e.nodeID2 with h | h <;> simp [h]

theorem mem_touched_of_node (v : ClientView) (n : CNode) (hn : n ∈ v.nodes) :
    n.id ∈ touchedIds v := by
  unfold touchedIds
  exact List.mem_append_left _ (List.mem_map_of_mem _ hn)

/-! ## Claim theorems for the ClientReconciler -/

/-- **C3.** Client reconciliation never removes state: every node id present
in the view is still present after reconciling, and the previous edge list is
retained unchanged as a prefix of the reconciled edge list — so every
previously known edge (in particular one absent from the incoming snapshot)
survives with identical fields and canonical key; edge merge only appends. -/
theorem C3_reconcile_never_removes (view incoming : ClientView) :
    (∀ n ∈ view.nodes, ∃ n' ∈ (reconcile view incoming).nodes, n'.id = n.id) ∧
    (∃ rest, (reconcile view incoming).edges = view.edges ++ rest) := by
  constructor
  · intro n hn
    have hk : n.id ∈ akeys (nodeMap view.nodes incoming.nodes) := by
      unfold nodeMap
      rw [mem_akeys_reconFold]
      right
      rw [mem_akeys_viewFold]
      left
      exact List.mem_map_of_mem _ hn
    obtain ⟨v, hv⟩ := Option.isSome_iff_exists.mp ((aget_isSome_iff _ _).mpr hk)
    refine ⟨v, ?_, ?_⟩
    · show v ∈ reconcileNodes view.nodes incoming.nodes
      rw [reconcileNodes_eq]
      exact mem_avalues_of_aget _ _ _ hv
    · exact cInv_nodeMap view.nodes incoming.nodes (n.id, v) (aget_mem _ _ _ hv)
  · exact ⟨reconGo (view.edges.map cEdgeKey) incoming.edges,
      reconcileEdges_eq view.edges incoming.edges⟩

/-- **C4.** For each incoming node whose id already exists in the view, the
reconciled view contains the old node overlaid field-by-field by the incoming
node (`{...old, ...incoming}`): every field the incoming node carries wins,
every field it omits keeps the old value; an incoming node with a fresh id is
inserted as-is. Stated under the data-model invariant of unique ids on both
sides. -/
theorem C4_reconcile_spread (view incoming : List CNode)
    (hv : (view.map (·.id)).Nodup) (hi : (incoming.map (·.id)).Nodup) :
    ∀ n ∈ incoming,
      (∀ old, view.find? (fun o => o.id = n.id) = some old →
        ∃ m ∈ reconcileNodes view incoming,
          m.id = n.id ∧
          m.title = (match n.title with | some t => some t | none => old.title) ∧
          m.summary = (match n.summary with | some s => some s | none => old.summary) ∧
          m.papers = (match n.papers with | some p => some p | none => old.papers) ∧
          m.relevance =
            (match n.relevance with | some r => some r | none => old.relevance)) ∧
      (view.find? (fun o => o.id = n.id) = none →
        n ∈ reconcileNodes view incoming) := by
  intro n hn
  have hbase := aget_viewFold_nodup view hv [] n.id
  have hfold := aget_reconFold_nodup incoming hi n hn
    (view.foldl (fun m n => aset m n.id n) [])
  constructor
  · intro old hold
    rw [hold] at hbase
    simp only [] at hbase
    rw [hbase] at hfold
    simp only [] at hfold
    refine ⟨spread old n, ?_, rfl, rfl, rfl, rfl, rfl⟩
    rw [reconcileNodes_eq]
    exact mem_avalues_of_aget _ _ _ hfold
  · intro hnone
    rw [hnone] at hbase
    simp only [aget_nil] at hbase
    rw [hbase] at hfold
    simp only [] at hfold
    rw [reconcileNodes_eq]
    exact mem_avalues_of_aget _ _ _ hfold

theorem mem_touched_of_id (v : ClientView) (k : Int)
    (h : k ∈ v.nodes.map (·.id)) : k ∈ touchedIds v := by
  obtain ⟨n, hn, rfl⟩ := List.mem_map.mp h
  exact mem_touched_of_node v n hn

theorem chain_nodeMap_aget (view : ClientView) (X Y : List CNode) (k : Int) :
    aget (nodeMap (reconcileNodes view.nodes X) Y) k =
      aget (Y.foldl reconStep
        (X.foldl reconStep
          (view.nodes.foldl (fun m n => aset m n.id n) []))) k := by
  unfold nodeMap
  apply aget_reconFold_key
  rw [reconcileNodes_eq]
  exact aget_rebuild (nodeMap view.nodes X) (cInv_nodeMap _ _) (cKeysNodup_nodeMap _ _) k

/-- **C10.** Client reconciliation is commutative for independent snapshots:
if `A` and `B` touch disjoint id sets (node ids and edge endpoints), folding
`A` then `B` into a view yields the same node set and edge set as folding `B`
then `A`. -/
theorem C10_reconcile_commutes (view A B : ClientView)
    (hdisj : ∀ k ∈ touchedIds A, ¬ k ∈ touchedIds B) :
    (∀ n, n ∈ (reconcile (reconcile view A) B).nodes ↔
          n ∈ (reconcile (reconcile view B) A).nodes) ∧
    (∀ e, e ∈ (reconcile (reconcile view A) B).edges ↔
          e ∈ (reconcile (reconcile view B) A).edges) := by
  constructor
  · -- nodes
    have m0eq : ∀ k,
        aget (B.nodes.foldl reconStep (A.nodes.foldl reconStep
          (view.nodes.foldl (fun m n => aset m n.id n) []))) k =
        aget (A.nodes.foldl reconStep (B.nodes.foldl reconStep
          (view.nodes.foldl (fun m n => aset m n.id n) []))) k := by
      intro k
      by_cases hA : k ∈ A.nodes.map (·.id)
      · have hB : ¬ k ∈ B.nodes.map (·.id) := fun hc =>
          hdisj k (mem_touched_of_id A k hA) (mem_touched_of_id B k hc)
        rw [aget_reconFold_untouched B.nodes _ k hB]
        exact aget_reconFold_key A.nodes _ _ k
          (aget_reconFold_untouched B.nodes _ k hB).symm
      · by_cases hB : k ∈ B.nodes.map (·.id)
        · rw [aget_reconFold_untouched A.nodes _ k hA]
          exact (aget_reconFold_key B.nodes _ _ k
            (aget_reconFold_untouched A.nodes _ k hA).symm).symm
        · rw [aget_reconFold_untouched B.nodes _ k hB,
            aget_reconFold_untouched A.nodes _ k hA,
            aget_reconFold_untouched A.nodes _ k hA,
            aget_reconFold_untouched B.nodes _ k hB]
    intro n
    show n ∈ reconcileNodes (reconcileNodes view.nodes A.nodes) B.nodes ↔
      n ∈ reconcileNodes (reconcileNodes view.nodes B.nodes) A.nodes
    rw [reconcileNodes_eq (reconcileNodes view.nodes A.nodes) B.nodes,
      reconcileNodes_eq (reconcileNodes view.nodes B.nodes) A.nodes,
      mem_avalues_iff_aget _ (cKeysNodup_nodeMap _ _),
      mem_avalues_iff_aget _ (cKeysNodup_nodeMap _ _)]
    constructor
    · rintro ⟨k, hk⟩
      refine ⟨k, ?_⟩
      rw [chain_nodeMap_aget view B.nodes A.nodes k, ← m0eq k,
        ← chain_nodeMap_aget view A.nodes B.nodes k]
      exact hk
    · rintro ⟨k, hk⟩
      refine ⟨k, ?_⟩
      rw [chain_nodeMap_aget view A.nodes B.nodes k, m0eq k,
        ← chain_nodeMap_aget view B.nodes A.nodes k]
      exact hk
  · -- edges
    have keydisj : ∀ {S T : ClientView}, (∀ k ∈ touchedIds S, ¬ k ∈ touchedIds T) →
        ∀ e ∈ T.edges, ∀ f ∈ S.edges, ¬ cEdgeKey e = cEdgeKey f := by
      intro S T hd e he f hf hc
      have h1 : (cEdgeKey e).1 ∈ touchedIds T := cEdgeKey_fst_touched T e he
      have h2 : (cEdgeKey f).1 ∈ touchedIds S := cEdgeKey_fst_touched S f hf
      rw [hc] at h1
      exact hd _ h2 h1
    have hAB := keydisj hdisj
    have hdisj' : ∀ k ∈ touchedIds B, ¬ k ∈ touchedIds A := fun k hk hc =>
      hdisj k hc hk
    have hBA := keydisj hdisj'
    have goes : ∀ (S T : ClientView),
        (∀ e ∈ T.edges, ∀ f ∈ S.edges, ¬ cEdgeKey e = cEdgeKey f) →
        reconcileEdges (reconcileEdges view.edges S.edges) T.edges =
          view.edges ++ reconGo (view.edges.map cEdgeKey) S.edges ++
            reconGo (view.edges.map cEdgeKey) T.edges := by
      intro S T hST
      rw [reconcileEdges_eq, reconcileEdges_eq]
      congr 1
      apply reconGo_congr
      intro e he
      rw [List.map_append, List.mem_append]
      constructor
      · rintro (h | h)
        · exact h
        · exfalso
          obtain ⟨f, hf, hfe⟩ := List.mem_map.mp h
          exact hST e he f
            (reconGo_subset S.edges _ f hf) hfe.symm
      · exact Or.inl
    intro e
    show e ∈ reconcileEdges (reconcileEdges view.edges A.edges) B.edges ↔
      e ∈ reconcileEdges (reconcileEdges view.edges B.edges) A.edges
    rw [goes A B hAB, goes B A hBA]
    simp only [List.append_assoc, List.mem_append]
    tauto

/-! ## EnrichmentAttacher: topic resolution (handler step 4 in
`src/optimize.js`) -/

/-- `labelByMergedId`: for every group with at least two **raw** member ids
(no validity filtering here, unlike `mergeNodes`), map the minimum raw member
id to the trimmed label (`(g.label || "").trim()`); later groups overwrite. -/
def labelByMergedId (groups : List Group) : List (Int × String) :=
  groups.foldl (fun m g =>
    if 2 ≤ g.memberIds.length then
      aset m (listMin g.memberIds) (jsTrim (g.label.getD ""))
    else m) []

/-- `const topic = labelByMergedId.get(n.id) || n.summary || n.title`. -/
def topicFor (labels : List (Int × String)) (n : Node) : String :=
  jsOr (aget labels n.id) (jsOr (some n.summary) n.title)

/-- The amended description of topic resolution: the last group with at least
two raw member ids whose minimum raw member id equals the node's id supplies
the trimmed label; a missing or empty label falls through to the node's
summary when nonempty, else its title. -/
def specTopicAmended (groups : List Group) (n : Node) : String :=
  match groups.reverse.find? (fun g =>
      2 ≤ g.memberIds.length && listMin g.memberIds = n.id) with
  | some g =>
    if jsTrim (g.label.getD "") = "" then jsOr (some n.summary) n.title
    else jsTrim (g.label.getD "")
  | none => jsOr (some n.summary) n.title

theorem aget_labelFold (groups : List Group) (m : List (Int × String)) (k : Int) :
    aget (groups.foldl (fun m g =>
        if 2 ≤ g.memberIds.length then
          aset m (listMin g.memberIds) (jsTrim (g.label.getD ""))
        else m) m) k =
      (match groups.reverse.find? (fun g =>
          2 ≤ g.memberIds.length && listMin g.memberIds = k) with
       | some g => some (jsTrim (g.label.getD ""))
       | none => aget m k) := by
  induction groups generalizing m with
  | nil => simp
  | cons g rest ih =>
    have hsplit : (g :: rest).reverse.find? (fun g =>
        2 ≤ g.memberIds.length && listMin g.memberIds = k) =
        ((rest.reverse.find? (fun g =>
            2 ≤ g.memberIds.length && listMin g.memberIds = k)).or
          (if (2 ≤ g.memberIds.length && listMin g.memberIds = k : Bool)
           then some g else none)) := by
      rw [List.reverse_cons, List.find?_append]
      congr 1
      cases hb : (decide (2 ≤ g.memberIds.length) && decide (listMin g.memberIds = k)) <;>
        simp [List.find?_cons, hb]
    rw [List.foldl_cons, ih, hsplit]
    by_cases hlen : 2 ≤ g.memberIds.length
    · by_cases hmin : listMin g.memberIds = k
      · cases hr : rest.reverse.find? (fun g =>
            2 ≤ g.memberIds.length && listMin g.memberIds = k) <;>
          simp [hr, hlen, hmin, Option.or, aget_aset]
      · cases hr : rest.reverse.find? (fun g =>
            2 ≤ g.memberIds.length && listMin g.memberIds = k) <;>
          simp [hr, hlen, hmin, Option.or, aget_aset]
    · cases hr : rest.reverse.find? (fun g =>
          2 ≤ g.memberIds.length && listMin g.memberIds = k) <;>
        simp [hr, hlen, Option.or]

/-- **C8 (amended).** The topic string for every node equals the amended
description: the label table is keyed by the minimum of each group's *raw*
member ids (for groups with ≥2 raw member ids, last group winning), and a
missing or empty trimmed label falls back to the node's summary when nonempty,
else to its title. -/
theorem C8_amended (groups : List Group) (n : Node) :
    topicFor (labelByMergedId groups) n = specTopicAmended groups n := by
  unfold topicFor specTopicAmended labelByMergedId
  rw [aget_labelFold]
  cases h : groups.reverse.find? (fun g =>
      2 ≤ g.memberIds.length && listMin g.memberIds = n.id) with
  | none => simp [jsOr]
  | some g => simp [jsOr]

/-- **C8 (counterexample).** The claim as stated predicts the topic of a
non-representative node to be its (nonempty) summary. But `labelByMergedId`
is keyed by the minimum of the *raw* member ids of any group with ≥2 raw
members, without filtering invalid ids: with nodes `1, 2` and the single
group `{label:"L", memberIds:[1, 9]}` (id `9` does not exist), the group is
rejected by `mergeNodes` (fewer than two valid members), node `1` passes
through unmerged — yet its topic is `"L"`, not its summary `"S1"`. -/
theorem C8_counterexample :
    acceptedB [⟨1, "T1", "S1", [], 5⟩, ⟨2, "T2", "S2", [], 3⟩]
      ⟨some "L", [1, 9], some "GS", none⟩ = false ∧
    (mergeNodes [⟨1, "T1", "S1", [], 5⟩, ⟨2, "T2", "S2", [], 3⟩]
      [⟨some "L", [1, 9], some "GS", none⟩]).1 =
      [⟨1, "T1", "S1", [], 5⟩, ⟨2, "T2", "S2", [], 3⟩] ∧
    topicFor (labelByMergedId [⟨some "L", [1, 9], some "GS", none⟩])
      ⟨1, "T1", "S1", [], 5⟩ = "L" ∧
    ¬ ("L" : String) = "S1" := by
  refine ⟨?_, ?_, ?_, ?_⟩ <;> decide

/-! ## EnrichmentAttacher: provider fallback chain
(`findOpenAlex` / `findArxiv` / `findScholarSerpAPI` in `src/optimize.js`)

HTTP calls are modelled by a `Fetch` outcome parameter: `failed` covers a
thrown `fetch` error *and* the 6-second `AbortController` timeout (both land
in the `catch` and return `[]`), `notOk` covers a non-2xx response, and `ok`
carries the parsed payload. For arXiv the payload is abstracted as the list
of per-`<entry>` optional `rel="alternate"` links the regex scan extracts,
in document order. -/

/-- Outcome of one `fetch` call. -/
inductive Fetch (α : Type) where
  | failed : Fetch α
  | notOk : Fetch α
  | ok : α → Fetch α
  deriving Repr, DecidableEq

/-- JS truthiness of an optional string (`undefined`, `null` and `""` are
falsy). -/
def truthy : Option String → Bool
  | some s => ¬ s = ""
  | none => false

/-- JS `a || b` on nullable strings. -/
def orStr (a b : Option String) : Option String := if truthy a then a else b

/-- An OpenAlex `location` object (only the fields the code reads). -/
structure OALocation where
  landing_page_url : Option String
  pdf_url : Option String
  deriving Repr, DecidableEq

/-- An OpenAlex work (only the fields the code reads). -/
structure OAWork where
  primary_location : Option OALocation
  locations : Option (List OALocation)
  doi : Option String
  id : Option String
  deriving Repr, DecidableEq

/-- The `.replace(/^https?:\/\/doi.org\//i, '')` step: strip a
case-insensitive `http(s)://doi.org/` prefix (the regex `.` is matched here
as a literal dot; the stripped byte count is the same either way). -/
def stripDoi (s : String) : String :=
  let low := s.data.map Char.toLower
  if low.take 16 = "https://doi.org/".data then ⟨s.data.drop 16⟩
  else if low.take 15 = "http://doi.org/".data then ⟨s.data.drop 15⟩
  else s

/-- `(w.id+'').split('/')` over characters. -/
def splitSlash (l : List Char) : List (List Char) :=
  l.foldr (fun c acc =>
    if c = '/' then [] :: acc
    else match acc with
         | [] => [[c]]
         | g :: gs => (c :: g) :: gs) [[]]

/-- `.split('/').pop()`. -/
def lastSegment (s : String) : String := ⟨(splitSlash s.data).getLastD []⟩

/-- The link-extraction chain for one OpenAlex work (the `||` cascade in
`findOpenAlex`). -/
def oaLink (w : OAWork) : Option String :=
  orStr (w.primary_location.bind (fun l => l.landing_page_url))
    (orStr (w.primary_location.bind (fun l => l.pdf_url))
      (orStr (match w.locations with
              | some ls => (ls.find? (fun l => truthy l.landing_page_url)).bind
                  (fun l => l.landing_page_url)
              | none => none)
        (orStr (match w.doi with
                | some d => if d = "" then none
                    else some ("https://doi.org/" ++ stripDoi d)
                | none => none)
          (match w.id with
           | some i => if i = "" then none
               else some ("https://openalex.org/" ++ lastSegment i)
           | none => none))))

/-- `findOpenAlex(topic, limit)` from `src/optimize.js`. -/
def findOpenAlex (topic : String) (limit : Nat) (resp : Fetch (List OAWork)) :
    List String :=
  if limit = 0 then []
  else if jsTrim topic = "" then []
  else match resp with
    | .failed => []
    | .notOk => []
    | .ok works =>
      ((works.map oaLink).filterMap (fun o => if truthy o then o else none)).take limit

/-- `findArxiv(topic, limit)` from `src/optimize.js`; the `ok` payload lists,
per `<entry>` block in document order, the entry's `rel="alternate"` link
when the link regex matches. -/
def findArxiv (topic : String) (limit : Nat) (resp : Fetch (List (Option String))) :
    List String :=
  if limit = 0 then []
  else if jsTrim topic = "" then []
  else match resp with
    | .failed => []
    | .notOk => []
    | .ok entries => (entries.filterMap id).take limit

/-- A SerpAPI auxiliary resource (only the field the code reads). -/
structure SerpResource where
  link : Option String
  deriving Repr, DecidableEq

/-- A SerpAPI organic result (only the fields the code reads). -/
structure SerpResult where
  link : Option String
  resources : Option (List SerpResource)
  deriving Repr, DecidableEq

/-- The link extraction for one SerpAPI result. -/
def serpLink (o : SerpResult) : Option String :=
  orStr o.link
    (match o.resources with
     | some rs => (rs.find? (fun x => truthy x.link)).bind (fun x => x.link)
     | none => none)

/-- `findScholarSerpAPI(topic, limit)` from `src/optimize.js`; `key` is the
`SERPAPI_KEY` environment variable. -/
def findScholarSerpAPI (key : Option String) (topic : String) (limit : Nat)
    (resp : Fetch (List SerpResult)) : List String :=
  if ¬ truthy key then []
  else if limit = 0 then []
  else if jsTrim topic = "" then []
  else match resp with
    | .failed => []
    | .notOk => []
    | .ok results =>
      ((results.map serpLink).filterMap (fun o => if truthy o then o else none)).take limit

/-- The per-node fallback chain in the handler:
`findOpenAlex`, then `findArxiv`, then `findScholarSerpAPI`, stopping at the
first nonempty result. -/
def enrichPapers (topic : String) (limit : Nat)
    (oa : Fetch (List OAWork)) (ax : Fetch (List (Option String)))
    (key : Option String) (sp : Fetch (List SerpResult)) : List String :=
  let papers := findOpenAlex topic limit oa
  let papers := if papers.length = 0 then findArxiv topic limit ax else papers
  if papers.length = 0 then findScholarSerpAPI key topic limit sp else papers

theorem findOpenAlex_err (topic : String) (limit : Nat)
    (resp : Fetch (List OAWork)) (h : ∀ works, resp ≠ .ok works) :
    findOpenAlex topic limit resp = [] := by
  unfold findOpenAlex
  by_cases h1 : limit = 0
  · simp [h1]
  · by_cases h2 : jsTrim topic = ""
    · simp [h1, h2]
    · cases resp with
      | failed => simp [h1, h2]
      | notOk => simp [h1, h2]
      | ok works => exact absurd rfl (h works)

theorem findArxiv_err (topic : String) (limit : Nat)
    (resp : Fetch (List (Option String))) (h : ∀ entries, resp ≠ .ok entries) :
    findArxiv topic limit resp = [] := by
  unfold findArxiv
  by_cases h1 : limit = 0
  · simp [h1]
  · by_cases h2 : jsTrim topic = ""
    · simp [h1, h2]
    · cases resp with
      | failed => simp [h1, h2]
      | notOk => simp [h1, h2]
      | ok entries => exact absurd rfl (h entries)

theorem findScholarSerpAPI_err (key : Option String) (topic : String) (limit : Nat)
    (resp : Fetch (List SerpResult)) (h : ∀ results, resp ≠ .ok results) :
    findScholarSerpAPI key topic limit resp = [] := by
  unfold findScholarSerpAPI
  by_cases h0 : ¬ truthy key
  · simp [h0]
  · by_cases h1 : limit = 0
    · simp [h0, h1]
    · by_cases h2 : jsTrim topic = ""
      · simp [h0, h1, h2]
      · cases resp with
        | failed => simp [h0, h1, h2]
        | notOk => simp [h0, h1, h2]
        | ok results => exact absurd rfl (h results)

theorem findOpenAlex_length_le (topic : String) (limit : Nat)
    (resp : Fetch (List OAWork)) : (findOpenAlex topic limit resp).length ≤ limit := by
  unfold findOpenAlex
  by_cases h1 : limit = 0
  · simp [h1]
  · by_cases h2 : jsTrim topic = ""
    · simp [h1, h2]
    · cases resp with
      | failed => simp [h1, h2]
      | notOk => simp [h1, h2]
      | ok works =>
        simp only [h1, h2, if_false, ite_false]
        exact le_trans (List.length_take_le _ _) (le_refl _)

theorem findArxiv_length_le (topic : String) (limit : Nat)
    (resp : Fetch (List (Option String))) :
    (findArxiv topic limit resp).length ≤ limit := by
  unfold findArxiv
  by_cases h1 : limit = 0
  · simp [h1]
  · by_cases h2 : jsTrim topic = ""
    · simp [h1, h2]
    · cases resp with
      | failed => simp [h1, h2]
      | notOk => simp [h1, h2]
      | ok entries =>
        simp only [h1, h2, if_false, ite_false]
        exact le_trans (List.length_take_le _ _) (le_refl _)

theorem findScholarSerpAPI_length_le (key : Option String) (topic : String)
    (limit : Nat) (resp : Fetch (List SerpResult)) :
    (findScholarSerpAPI key topic limit resp).length ≤ limit := by
  unfold findScholarSerpAPI
  by_cases h0 : ¬ truthy key
  · simp [h0]
  · by_cases h1 : limit = 0
    · simp [h0, h1]
    · by_cases h2 : jsTrim topic = ""
      · simp [h0, h1, h2]
      · cases resp with
        | failed => simp [h0, h1, h2]
        | notOk => simp [h0, h1, h2]
        | ok results =>
          simp only [h0, h1, h2, if_false, ite_false]
          exact le_trans (List.length_take_le _ _) (le_refl _)

/-- **C9.** The per-node paper lookup is an ordered fallback chain —
OpenAlex, then arXiv, then SerpAPI/Scholar — each invoked with the same
configured limit; the chain stops at the first provider returning at least
one result; a provider whose fetch fails (including the abort-timeout) or
returns a non-OK status yields `[]` and never an exception (the providers are
total functions), so the chain continues; if all providers are empty the
result is `[]`; and every provider, as well as the chain, returns at most
`limit` links. -/
theorem C9_provider_fallback_chain (topic : String) (limit : Nat)
    (oa : Fetch (List OAWork)) (ax : Fetch (List (Option String)))
    (key : Option String) (sp : Fetch (List SerpResult)) :
    (¬ findOpenAlex topic limit oa = [] →
       enrichPapers topic limit oa ax key sp = findOpenAlex topic limit oa) ∧
    (findOpenAlex topic limit oa = [] → ¬ findArxiv topic limit ax = [] →
       enrichPapers topic limit oa ax key sp = findArxiv topic limit ax) ∧
    (findOpenAlex topic limit oa = [] → findArxiv topic limit ax = [] →
       enrichPapers topic limit oa ax key sp = findScholarSerpAPI key topic limit sp) ∧
    ((∀ works, oa ≠ .ok works) → findOpenAlex topic limit oa = []) ∧
    ((∀ entries, ax ≠ .ok entries) → findArxiv topic limit ax = []) ∧
    ((∀ results, sp ≠ .ok results) → findScholarSerpAPI key topic limit sp = []) ∧
    (findOpenAlex topic limit oa).length ≤ limit ∧
    (findArxiv topic limit ax).length ≤ limit ∧
    (findScholarSerpAPI key topic limit sp).length ≤ limit ∧
    (enrichPapers topic limit oa ax key sp).length ≤ limit := by
  refine ⟨?_, ?_, ?_, findOpenAlex_err topic limit oa,
    findArxiv_err topic limit ax, findScholarSerpAPI_err key topic limit sp,
    findOpenAlex_length_le topic limit oa, findArxiv_length_le topic limit ax,
    findScholarSerpAPI_length_le key topic limit sp, ?_⟩
  · intro h
    have hne : ¬ (findOpenAlex topic limit oa).length = 0 := by
      simpa [List.length_eq_zero] using h
    unfold enrichPapers
    simp [hne]
  · intro h1 h2
    have hz : (findOpenAlex topic limit oa).length = 0 := by simp [h1]
    have hne : ¬ (findArxiv topic limit ax).length = 0 := by
      simpa [List.length_eq_zero] using h2
    unfold enrichPapers
    simp [hz, hne]
  · intro h1 h2
    have hz1 : (findOpenAlex topic limit oa).length = 0 := by simp [h1]
    have hz2 : (findArxiv topic limit ax).length = 0 := by simp [h2]
    unfold enrichPapers
    simp [hz1, hz2]
  · unfold enrichPapers
    by_cases hz1 : (findOpenAlex topic limit oa).length = 0
    · by_cases hz2 : (findArxiv topic limit ax).length = 0
      · simp [hz1, hz2, findScholarSerpAPI_length_le key topic limit sp]
      · simp [hz1, hz2, findArxiv_length_le topic limit ax]
    · simp [hz1, findOpenAlex_length_le topic limit oa]

/-! ## Concrete witnesses (the spec's worked examples) -/

/-- Example 1 of the spec, through the amended C1: nodes `1` (relevance 9)
and `2` (relevance 5) merged by one group labelled "Graph Learning". -/
theorem C1_amended_witness :
    (nodeIds [⟨1, "GNN", "GNN", [], 9⟩, ⟨2, "GCN", "GCN", [], 5⟩]).Nodup ∧
    acceptedB [⟨1, "GNN", "GNN", [], 9⟩, ⟨2, "GCN", "GCN", [], 5⟩]
      ⟨some "Graph Learning", [1, 2], some "dots", none⟩ = true ∧
    (∃ nd : Node,
      (mergeNodes [⟨1, "GNN", "GNN", [], 9⟩, ⟨2, "GCN", "GCN", [], 5⟩]
          [⟨some "Graph Learning", [1, 2], some "dots", none⟩]).1.filter
          (fun n => n.id = listMin (validMembers
            [⟨1, "GNN", "GNN", [], 9⟩, ⟨2, "GCN", "GCN", [], 5⟩]
            ⟨some "Graph Learning", [1, 2], some "dots", none⟩)) = [nd] ∧
      nd.id ∈ validMembers [⟨1, "GNN", "GNN", [], 9⟩, ⟨2, "GCN", "GCN", [], 5⟩]
        ⟨some "Graph Learning", [1, 2], some "dots", none⟩ ∧
      (∀ k ∈ validMembers [⟨1, "GNN", "GNN", [], 9⟩, ⟨2, "GCN", "GCN", [], 5⟩]
        ⟨some "Graph Learning", [1, 2], some "dots", none⟩, nd.id ≤ k) ∧
      (((⟨some "Graph Learning", [1, 2], some "dots", none⟩ : Group).label = none ∨
        (⟨some "Graph Learning", [1, 2], some "dots", none⟩ : Group).label = some "") →
        nd.title = jsTrim ("Merged " ++ joinPlus (validMembers
          [⟨1, "GNN", "GNN", [], 9⟩, ⟨2, "GCN", "GCN", [], 5⟩]
          ⟨some "Graph Learning", [1, 2], some "dots", none⟩))) ∧
      (∀ s, (⟨some "Graph Learning", [1, 2], some "dots", none⟩ : Group).label = some s →
        ¬ s = "" → nd.title = jsTrim s) ∧
      (((⟨some "Graph Learning", [1, 2], some "dots", none⟩ : Group).summary = none ∨
        (⟨some "Graph Learning", [1, 2], some "dots", none⟩ : Group).summary = some "") →
        nd.summary = jsTrim nd.title) ∧
      (∀ s, (⟨some "Graph Learning", [1, 2], some "dots", none⟩ : Group).summary = some s →
        ¬ s = "" → nd.summary = jsTrim s) ∧
      nd.papers = [] ∧
      (∃ n ∈ ([⟨1, "GNN", "GNN", [], 9⟩, ⟨2, "GCN", "GCN", [], 5⟩] : List Node),
        n.id ∈ validMembers [⟨1, "GNN", "GNN", [], 9⟩, ⟨2, "GCN", "GCN", [], 5⟩]
          ⟨some "Graph Learning", [1, 2], some "dots", none⟩ ∧
        nd.relevance = n.relevance) ∧
      (∀ n ∈ ([⟨1, "GNN", "GNN", [], 9⟩, ⟨2, "GCN", "GCN", [], 5⟩] : List Node),
        n.id ∈ validMembers [⟨1, "GNN", "GNN", [], 9⟩, ⟨2, "GCN", "GCN", [], 5⟩]
          ⟨some "Graph Learning", [1, 2], some "dots", none⟩ →
        n.relevance ≤ nd.relevance) ∧
      (∀ k ∈ validMembers [⟨1, "GNN", "GNN", [], 9⟩, ⟨2, "GCN", "GCN", [], 5⟩]
          ⟨some "Graph Learning", [1, 2], some "dots", none⟩,
        aget (mergeNodes [⟨1, "GNN", "GNN", [], 9⟩, ⟨2, "GCN", "GCN", [], 5⟩]
          [⟨some "Graph Learning", [1, 2], some "dots", none⟩]).2 k = some nd.id)) :=
  ⟨by decide, by decide,
   C1_amended [⟨1, "GNN", "GNN", [], 9⟩, ⟨2, "GCN", "GCN", [], 5⟩]
     [⟨some "Graph Learning", [1, 2], some "dots", none⟩]
     (by decide) (by simp) ⟨some "Graph Learning", [1, 2], some "dots", none⟩
     (by simp) (by decide)⟩

/-- Example 2 of the spec: duplicate undirected edge, first occurrence wins. -/
theorem C2_witness :
    rewireEdges [⟨1, 2, "a"⟩, ⟨2, 1, "b"⟩] [(1, 1), (2, 2)] = [⟨1, 2, "a"⟩] ∧
    rewireEdges [⟨1, 2, "a"⟩, ⟨2, 1, "b"⟩] [(1, 1), (2, 2)] =
      specRewire [⟨1, 2, "a"⟩, ⟨2, 1, "b"⟩] [(1, 1), (2, 2)] ∧
    (∀ f ∈ rewireEdges [⟨1, 2, "a"⟩, ⟨2, 1, "b"⟩] [(1, 1), (2, 2)],
       f.nodeID1 ≠ f.nodeID2) :=
  ⟨by decide, (C2_rewire_correct _ _).1, fun f hf => (C2_rewire_correct _ _).2.1 f hf⟩

/-- A polling round on a concrete view: nothing already known is lost. -/
theorem C3_witness :
    (reconcile ⟨[⟨5, some "X", some "old", none, none⟩], [⟨1, 2, "r"⟩]⟩
      ⟨[], []⟩).edges = [⟨1, 2, "r"⟩] ∧
    ((∀ n ∈ (⟨[⟨5, some "X", some "old", none, none⟩], [⟨1, 2, "r"⟩]⟩ : ClientView).nodes,
        ∃ n' ∈ (reconcile ⟨[⟨5, some "X", some "old", none, none⟩], [⟨1, 2, "r"⟩]⟩
          ⟨[], []⟩).nodes, n'.id = n.id) ∧
     (∃ rest, (reconcile ⟨[⟨5, some "X", some "old", none, none⟩], [⟨1, 2, "r"⟩]⟩
        ⟨[], []⟩).edges =
          (⟨[⟨5, some "X", some "old", none, none⟩], [⟨1, 2, "r"⟩]⟩ : ClientView).edges
            ++ rest)) :=
  ⟨by decide, C3_reconcile_never_removes _ _⟩

/-- Example 3 of the spec: `{id:5,title:"X",summary:"old"}` reconciled with
`{id:5,title:"X2"}` keeps the old summary and takes the new title. -/
theorem C4_witness :
    ([⟨5, some "X", some "old", none, none⟩].map (fun n : CNode => n.id)).Nodup ∧
    (∃ m ∈ reconcileNodes [⟨5, some "X", some "old", none, none⟩]
        [⟨5, some "X2", none, none, none⟩],
      m.id = 5 ∧ m.title = some "X2" ∧ m.summary = some "old" ∧
      m.papers = none ∧ m.relevance = none) := by
  refine ⟨by decide, ?_⟩
  have h := ((C4_reconcile_spread
      [⟨5, some "X", some "old", none, none⟩] [⟨5, some "X2", none, none, none⟩]
      (by decide) (by decide) ⟨5, some "X2", none, none, none⟩ (by simp)).1
      ⟨5, some "X", some "old", none, none⟩ (by decide))
  obtain ⟨m, hm, h1, h2, h3, h4, h5⟩ := h
  exact ⟨m, hm, h1, h2, h3, h4, h5⟩

/-- Example 4 of the spec: a group with a single member id is dropped and
node 7 passes through unmerged with an identity mapping. -/
theorem C5_witness :
    (nodeIds [⟨7, "N7", "S7", [], 1⟩]).Nodup ∧
    (⟨7, "N7", "S7", [], 1⟩ : Node) ∈
      (mergeNodes [⟨7, "N7", "S7", [], 1⟩] [⟨some "L", [7], some "S", none⟩]).1 ∧
    aget (mergeNodes [⟨7, "N7", "S7", [], 1⟩]
      [⟨some "L", [7], some "S", none⟩]).2 7 = some 7 := by
  refine ⟨by decide, ?_, ?_⟩
  · exact ((C5_merge_passthrough_and_resolution [⟨7, "N7", "S7", [], 1⟩]
      [⟨some "L", [7], some "S", none⟩] (by decide)).2.1
      ⟨7, "N7", "S7", [], 1⟩ (by simp) (by decide)).1
  · exact ((C5_merge_passthrough_and_resolution [⟨7, "N7", "S7", [], 1⟩]
      [⟨some "L", [7], some "S", none⟩] (by decide)).2.1
      ⟨7, "N7", "S7", [], 1⟩ (by simp) (by decide)).2

/-- Example 5 of the spec: an edge with an endpoint absent from the id map is
dropped, and the well-formedness facts hold at this concrete input. -/
theorem C7_witness :
    rewireEdges [⟨1, 9, "x"⟩]
      (mergeNodes [⟨1, "A", "A", [], 1⟩, ⟨2, "B", "B", [], 2⟩] []).2 = [] ∧
    ((∀ k, (aget (mergeNodes [⟨1, "A", "A", [], 1⟩, ⟨2, "B", "B", [], 2⟩] []).2 k).isSome ↔
        k ∈ nodeIds [⟨1, "A", "A", [], 1⟩, ⟨2, "B", "B", [], 2⟩]) ∧
     (∀ k r, aget (mergeNodes [⟨1, "A", "A", [], 1⟩, ⟨2, "B", "B", [], 2⟩] []).2 k = some r →
        r ∈ nodeIds (mergeNodes [⟨1, "A", "A", [], 1⟩, ⟨2, "B", "B", [], 2⟩] []).1) ∧
     (∀ f ∈ rewireEdges [⟨1, 9, "x"⟩]
          (mergeNodes [⟨1, "A", "A", [], 1⟩, ⟨2, "B", "B", [], 2⟩] []).2,
        f.nodeID1 ∈ nodeIds (mergeNodes [⟨1, "A", "A", [], 1⟩, ⟨2, "B", "B", [], 2⟩] []).1 ∧
        f.nodeID2 ∈ nodeIds (mergeNodes [⟨1, "A", "A", [], 1⟩, ⟨2, "B", "B", [], 2⟩] []).1)) :=
  ⟨by decide, C7_consolidation_wellformed _ _ _⟩

/-- A concrete chain run: OpenAlex succeeds, so the chain stops there. -/
theorem C9_witness :
    ¬ findOpenAlex "graph" 3
      (.ok [⟨some ⟨some "https://x.org/p", none⟩, none, none, none⟩]) = [] ∧
    enrichPapers "graph" 3
      (.ok [⟨some ⟨some "https://x.org/p", none⟩, none, none, none⟩])
      .failed none .failed =
      findOpenAlex "graph" 3
        (.ok [⟨some ⟨some "https://x.org/p", none⟩, none, none, none⟩]) :=
  ⟨by decide,
   (C9_provider_fallback_chain "graph" 3
     (.ok [⟨some ⟨some "https://x.org/p", none⟩, none, none, none⟩])
     .failed none .failed).1 (by decide)⟩

/-- Two snapshots touching disjoint id sets reconcile commutatively on a
concrete view. -/
theorem C10_witness :
    (∀ k ∈ touchedIds ⟨[⟨1, some "a", none, none, none⟩], [⟨1, 1, "ra"⟩]⟩,
       ¬ k ∈ touchedIds ⟨[⟨2, some "b", none, none, none⟩], [⟨2, 2, "rb"⟩]⟩) ∧
    ((⟨2, some "b", none, none, none⟩ : CNode) ∈
        (reconcile (reconcile ⟨[⟨3, some "v", none, none, none⟩], [⟨3, 4, "rv"⟩]⟩
          ⟨[⟨1, some "a", none, none, none⟩], [⟨1, 1, "ra"⟩]⟩)
          ⟨[⟨2, some "b", none, none, none⟩], [⟨2, 2, "rb"⟩]⟩).nodes ↔
      (⟨2, some "b", none, none, none⟩ : CNode) ∈
        (reconcile (reconcile ⟨[⟨3, some "v", none, none, none⟩], [⟨3, 4, "rv"⟩]⟩
          ⟨[⟨2, some "b", none, none, none⟩], [⟨2, 2, "rb"⟩]⟩)
          ⟨[⟨1, some "a", none, none, none⟩], [⟨1, 1, "ra"⟩]⟩).nodes) ∧
    ((⟨1, 1, "ra"⟩ : Edge) ∈
        (reconcile (reconcile ⟨[⟨3, some "v", none, none, none⟩], [⟨3, 4, "rv"⟩]⟩
          ⟨[⟨1, some "a", none, none, none⟩], [⟨1, 1, "ra"⟩]⟩)
          ⟨[⟨2, some "b", none, none, none⟩], [⟨2, 2, "rb"⟩]⟩).edges ↔
      (⟨1, 1, "ra"⟩ : Edge) ∈
        (reconcile (reconcile ⟨[⟨3, some "v", none, none, none⟩], [⟨3, 4, "rv"⟩]⟩
          ⟨[⟨2, some "b", none, none, none⟩], [⟨2, 2, "rb"⟩]⟩)
          ⟨[⟨1, some "a", none, none, none⟩], [⟨1, 1, "ra"⟩]⟩).edges) :=
  ⟨by decide,
   (C10_reconcile_commutes ⟨[⟨3, some "v", none, none, none⟩], [⟨3, 4, "rv"⟩]⟩
     ⟨[⟨1, some "a", none, none, none⟩], [⟨1, 1, "ra"⟩]⟩
     ⟨[⟨2, some "b", none, none, none⟩], [⟨2, 2, "rb"⟩]⟩ (by decide)).1 _,
   (C10_reconcile_commutes ⟨[⟨3, some "v", none, none, none⟩], [⟨3, 4, "rv"⟩]⟩
     ⟨[⟨1, some "a", none, none, none⟩], [⟨1, 1, "ra"⟩]⟩
     ⟨[⟨2, some "b", none, none, none⟩], [⟨2, 2, "rb"⟩]⟩ (by decide)).2 _⟩

end HackTX
